import Mathlib

/-!
Verification of the quality-definition configuration module
(`buildarr_sonarr/config/quality.py`) of the `buildarr-sonarr` repository.

The Python module is shallowly embedded: pydantic model construction becomes
an `Except`-valued constructor function, the Python `dict` becomes an
insertion-ordered association list, and the network-mutating `update_remote`
method becomes a pure function returning the list of issued PUT calls
together with its outcome (normal return or raised `KeyError`).
-/

/-! ### Module-level constants (`QUALITYDEFINITION_*` in the source) -/

def QUALITYDEFINITION_MIN_MAX : ℚ := 1998

def QUALITYDEFINITION_PREFERRED_MAX : ℚ := 1999

def QUALITYDEFINITION_MAX : ℚ := 2000

/-! ### Association-list model of Python `dict`

Python dictionaries preserve insertion order; assigning to an existing key
replaces its value in place, assigning to a fresh key appends.  Dict
comprehensions build a dict by successive assignment (`dictOf`).
-/

/-- Python `d[k] = v`: replace the binding in place when `k` is present,
append a new binding otherwise. -/
def dictUpsert {α β : Type} [DecidableEq α] :
    List (α × β) → α → β → List (α × β)
  | [], k, v => [(k, v)]
  | p :: rest, k, v =>
      if p.1 = k then (k, v) :: rest else p :: dictUpsert rest k v

/-- Python dict comprehension over a list of key/value pairs (later keys win). -/
def dictOf {α β : Type} [DecidableEq α] (l : List (α × β)) : List (α × β) :=
  l.foldl (fun acc p => dictUpsert acc p.1 p.2) []

/-- Python `d[k]` / `k in d` lookup: the value at the first binding of `k`. -/
def dictLookup {α β : Type} [DecidableEq α] : List (α × β) → α → Option β
  | [], _ => none
  | p :: rest, k => if p.1 = k then some p.2 else dictLookup rest k

/-- Python `str.lower()`: lowercase every character. -/
def strLower (s : String) : String := ⟨s.data.map Char.toLower⟩

instance {ε α : Type} [DecidableEq ε] [DecidableEq α] :
    DecidableEq (Except ε α) := fun a b =>
  match a, b with
  | .error e, .error f =>
      if h : e = f then .isTrue (by rw [h])
      else .isFalse (by intro hc; cases hc; exact h rfl)
  | .error _, .ok _ => .isFalse (by intro hc; cases hc)
  | .ok _, .error _ => .isFalse (by intro hc; cases hc)
  | .ok x, .ok y =>
      if h : x = y then .isTrue (by rw [h])
      else .isFalse (by intro hc; cases hc; exact h rfl)

/-! ### `QualityDefinition` and its pydantic validation -/

structure QualityDefinition where
  title : Option String
  min : ℚ
  preferred : ℚ
  max : Option ℚ
deriving DecidableEq, Repr

/-- Validation failures: a per-field range violation (pydantic `Field`
constraint, identified by the field name) or the `ValueError` raised by the
`validate_max` field validator (the spec's `DomainRangeError`). -/
inductive ValidationError where
  | fieldRange (field : String)
  | domainRange
deriving DecidableEq, Repr

/-- The `validate_max` field validator, verbatim from the source:
clamp a present `max` to `QUALITYDEFINITION_MAX`, normalize a clamped value
that reaches the ceiling to `None`, use the ceiling when `max` is unset, and
reject when the ceiling does not exceed `min` by at least 1. -/
def validate_max (value : Option ℚ) (quality_min : ℚ) :
    Except ValidationError (Option ℚ) :=
  let p : Option ℚ × ℚ :=
    match value with
    | some v =>
        let quality_max := min v QUALITYDEFINITION_MAX
        (if QUALITYDEFINITION_MAX ≤ quality_max then none else some v, quality_max)
    | none => (none, QUALITYDEFINITION_MAX)
  if p.2 - quality_min < 1 then .error .domainRange else .ok p.1

/-- Construction of a `QualityDefinition` (pydantic model validation).
Per-field `Field` range checks run in field-declaration order —
`min`: `ge=0, le=QUALITYDEFINITION_MIN_MAX`; `preferred`: `ge=0` only, since
the second declaration of `preferred` in the class body overrides the first
one (which had `le=QUALITYDEFINITION_PREFERRED_MAX`); `max`, when present:
`ge=1, le=QUALITYDEFINITION_MAX` — followed by the `validate_max` validator. -/
def mkQualityDefinition (title : Option String) (minv preferred : ℚ)
    (maxv : Option ℚ) : Except ValidationError QualityDefinition :=
  if 0 ≤ minv ∧ minv ≤ QUALITYDEFINITION_MIN_MAX then
    if 0 ≤ preferred then
      match maxv with
      | some m =>
          if 1 ≤ m ∧ m ≤ QUALITYDEFINITION_MAX then
            (validate_max (some m) minv).map
              (fun value => ⟨title, minv, preferred, value⟩)
          else .error (.fieldRange "max")
      | none =>
          (validate_max none minv).map
            (fun value => ⟨title, minv, preferred, value⟩)
    else .error (.fieldRange "preferred")
  else .error (.fieldRange "min")

/-- The effective ceiling `validate_max` checks against: a present `max`
clamped to the domain ceiling, or the ceiling itself when `max` is unset. -/
def effectiveCeiling (maxv : Option ℚ) : ℚ :=
  match maxv with
  | some v => min v QUALITYDEFINITION_MAX
  | none => QUALITYDEFINITION_MAX

/-! ### Claims C5, C6, C7 -/

/-- Claim C5: for tier inputs passing the per-field range checks,
construction fails with the domain-range error exactly when
`effectiveCeiling - min < 1`, and succeeds whenever the gap is at least 1. -/
theorem C5_domain_range_error (title : Option String) (minv preferred : ℚ)
    (maxv : Option ℚ) (h1 : 0 ≤ minv) (h2 : minv ≤ QUALITYDEFINITION_MIN_MAX)
    (h3 : 0 ≤ preferred)
    (h4 : ∀ m, maxv = some m → 1 ≤ m ∧ m ≤ QUALITYDEFINITION_MAX) :
    (mkQualityDefinition title minv preferred maxv =
        .error .domainRange ↔ effectiveCeiling maxv - minv < 1) ∧
    (1 ≤ effectiveCeiling maxv - minv →
      ∃ d, mkQualityDefinition title minv preferred maxv = .ok d) := by
  have hgap : ∀ x : ℚ, ¬ x - minv < 1 ↔ 1 ≤ x - minv := by
    intro x; exact not_lt
  unfold mkQualityDefinition validate_max effectiveCeiling
  cases maxv with
  | none =>
      simp only [if_pos (And.intro h1 h2), if_pos h3]
      by_cases hlt : QUALITYDEFINITION_MAX - minv < 1
      · simp [hlt, Except.map]
      · simp [hlt, Except.map]
  | some m =>
      have hm := h4 m rfl
      simp only [if_pos (And.intro h1 h2), if_pos h3, if_pos hm]
      by_cases hlt : min m QUALITYDEFINITION_MAX - minv < 1
      · simp only [hlt, if_true]
        constructor
        · simp [Except.map]
        · intro hge; exact absurd hlt (not_lt.mpr hge)
      · simp only [hlt, if_false]
        refine ⟨⟨fun h => ?_, fun h => h.elim⟩, fun _ => ?_⟩
        · by_cases hceil : QUALITYDEFINITION_MAX ≤ min m QUALITYDEFINITION_MAX <;>
            simp [hceil, Except.map] at h
        · by_cases hceil : QUALITYDEFINITION_MAX ≤ min m QUALITYDEFINITION_MAX <;>
            simp [hceil, Except.map]

/-- Claim C5 witness at a concrete input. -/
theorem C5_witness :
    (mkQualityDefinition none 2 5 (some 100) =
        .error .domainRange ↔ effectiveCeiling (some 100) - 2 < 1) ∧
    (1 ≤ effectiveCeiling (some 100) - 2 →
      ∃ d, mkQualityDefinition none 2 5 (some 100) = .ok d) :=
  C5_domain_range_error none 2 5 (some 100) (by norm_num)
    (by norm_num [QUALITYDEFINITION_MIN_MAX]) (by norm_num)
    (by intro m hm; cases hm; constructor <;> norm_num [QUALITYDEFINITION_MAX])

/-- Claim C6: constructing with `max` exactly at the domain ceiling
normalizes `max` to `none`; any present, otherwise-valid `max` strictly
below the ceiling is kept as given. -/
theorem C6_ceiling_normalized (title : Option String) (minv preferred m : ℚ)
    (h1 : 0 ≤ minv) (h2 : minv ≤ QUALITYDEFINITION_MIN_MAX)
    (h3 : 0 ≤ preferred) :
    mkQualityDefinition title minv preferred (some QUALITYDEFINITION_MAX) =
      .ok ⟨title, minv, preferred, none⟩ ∧
    (1 ≤ m → m < QUALITYDEFINITION_MAX → ∀ d,
      mkQualityDefinition title minv preferred (some m) = .ok d →
      d.max = some m) := by
  constructor
  · have hone : (1 : ℚ) ≤ QUALITYDEFINITION_MAX := by
      norm_num [QUALITYDEFINITION_MAX]
    have hgap : ¬ QUALITYDEFINITION_MAX - minv < 1 := by
      rw [not_lt]
      have hmm : QUALITYDEFINITION_MIN_MAX + 2 = QUALITYDEFINITION_MAX := by
        norm_num [QUALITYDEFINITION_MAX, QUALITYDEFINITION_MIN_MAX]
      linarith
    unfold mkQualityDefinition validate_max
    simp [And.intro h1 h2, h3, hone, hgap, Except.map, min_self]
  · intro hm1 hm2 d hd
    unfold mkQualityDefinition validate_max at hd
    have hrange : (1 : ℚ) ≤ m ∧ m ≤ QUALITYDEFINITION_MAX :=
      ⟨hm1, le_of_lt hm2⟩
    have hmin : min m QUALITYDEFINITION_MAX = m := min_eq_left (le_of_lt hm2)
    have hceil : ¬ QUALITYDEFINITION_MAX ≤ min m QUALITYDEFINITION_MAX := by
      rw [hmin]; exact not_le.mpr hm2
    simp only [if_pos (And.intro h1 h2), if_pos h3, if_pos hrange, hmin, hceil,
      if_false] at hd
    by_cases hgap : m - minv < 1
    · simp [hgap, Except.map] at hd
    · simp [hgap, Except.map] at hd
      rw [← hd]
      simp [not_le.mpr hm2]

/-- Claim C6 witness at a concrete input. -/
theorem C6_witness :
    mkQualityDefinition none 2 5 (some QUALITYDEFINITION_MAX) =
      .ok ⟨none, 2, 5, none⟩ ∧
    (1 ≤ (100 : ℚ) → (100 : ℚ) < QUALITYDEFINITION_MAX → ∀ d,
      mkQualityDefinition none 2 5 (some 100) = .ok d → d.max = some 100) :=
  C6_ceiling_normalized none 2 5 100 (by norm_num)
    (by norm_num [QUALITYDEFINITION_MIN_MAX]) (by norm_num)

/-- Claim C7 counterexample: the claim requires every `min` above 399 to be
rejected, but construction with `min = 400` succeeds — the source constraint
on `min` is `le=QUALITYDEFINITION_MIN_MAX` (1998), not 399. -/
theorem C7_counterexample :
    mkQualityDefinition none 400 0 none = .ok ⟨none, 400, 0, none⟩ ∧
    (399 : ℚ) < 400 := by
  constructor
  · unfold mkQualityDefinition validate_max
    norm_num [QUALITYDEFINITION_MIN_MAX, QUALITYDEFINITION_MAX, Except.map]
  · norm_num

/-- Claim C7 (amended): construction enforces `min ∈ [0, 1998]`,
`preferred ≥ 0` and, for present `max`, `max ∈ [1, 2000]`; inputs violating
a range are rejected with that field's range error, and inputs inside all
the ranges pass every per-field range check. -/
theorem C7_field_ranges (title : Option String) (minv preferred : ℚ)
    (maxv : Option ℚ) :
    ((minv < 0 ∨ QUALITYDEFINITION_MIN_MAX < minv) →
      mkQualityDefinition title minv preferred maxv =
        .error (.fieldRange "min")) ∧
    (0 ≤ minv → minv ≤ QUALITYDEFINITION_MIN_MAX → preferred < 0 →
      mkQualityDefinition title minv preferred maxv =
        .error (.fieldRange "preferred")) ∧
    (0 ≤ minv → minv ≤ QUALITYDEFINITION_MIN_MAX → 0 ≤ preferred →
      ∀ m, maxv = some m → (m < 1 ∨ QUALITYDEFINITION_MAX < m) →
      mkQualityDefinition title minv preferred maxv =
        .error (.fieldRange "max")) ∧
    (0 ≤ minv → minv ≤ QUALITYDEFINITION_MIN_MAX → 0 ≤ preferred →
      (∀ m, maxv = some m → 1 ≤ m ∧ m ≤ QUALITYDEFINITION_MAX) →
      ∀ f, mkQualityDefinition title minv preferred maxv ≠
        .error (.fieldRange f)) := by
  refine ⟨?_, ?_, ?_, ?_⟩
  · intro h
    have : ¬ (0 ≤ minv ∧ minv ≤ QUALITYDEFINITION_MIN_MAX) := by
      rcases h with h | h
      · exact fun hc => absurd hc.1 (not_le.mpr h)
      · exact fun hc => absurd hc.2 (not_le.mpr h)
    unfold mkQualityDefinition
    simp [this]
  · intro h1 h2 h3
    unfold mkQualityDefinition
    simp [And.intro h1 h2, not_le.mpr h3]
  · intro h1 h2 h3 m hm h4
    subst hm
    have : ¬ ((1 : ℚ) ≤ m ∧ m ≤ QUALITYDEFINITION_MAX) := by
      rcases h4 with h | h
      · exact fun hc => absurd hc.1 (not_le.mpr h)
      · exact fun hc => absurd hc.2 (not_le.mpr h)
    unfold mkQualityDefinition
    simp [And.intro h1 h2, h3, this]
  · intro h1 h2 h3 h4 f
    unfold mkQualityDefinition validate_max
    cases maxv with
    | none =>
        simp only [if_pos (And.intro h1 h2), if_pos h3]
        by_cases hgap : QUALITYDEFINITION_MAX - minv < 1 <;>
          simp [hgap, Except.map]
    | some m =>
        have hm := h4 m rfl
        simp only [if_pos (And.intro h1 h2), if_pos h3, if_pos hm]
        by_cases hgap : min m QUALITYDEFINITION_MAX - minv < 1
        · simp [hgap, Except.map]
        · by_cases hceil : QUALITYDEFINITION_MAX ≤ min m QUALITYDEFINITION_MAX <;>
            simp [hgap, hceil, Except.map]

/-- Claim C7 witness: each rejection branch and the acceptance branch at
concrete inputs. -/
theorem C7_witness :
    mkQualityDefinition none (-1) 0 none = .error (.fieldRange "min") ∧
    mkQualityDefinition none 0 (-1) none = .error (.fieldRange "preferred") ∧
    mkQualityDefinition none 0 0 (some 3000) = .error (.fieldRange "max") ∧
    ∀ f, mkQualityDefinition none 2 5 (some 100) ≠ .error (.fieldRange f) := by
  refine ⟨?_, ?_, ?_, ?_⟩
  · exact (C7_field_ranges none (-1) 0 none).1 (Or.inl (by norm_num))
  · exact (C7_field_ranges none 0 (-1) none).2.1 (by norm_num)
      (by norm_num [QUALITYDEFINITION_MIN_MAX]) (by norm_num)
  · exact (C7_field_ranges none 0 0 (some 3000)).2.2.1 (by norm_num)
      (by norm_num [QUALITYDEFINITION_MIN_MAX]) (by norm_num) 3000 rfl
      (Or.inr (by norm_num [QUALITYDEFINITION_MAX]))
  · exact (C7_field_ranges none 2 5 (some 100)).2.2.2 (by norm_num)
      (by norm_num [QUALITYDEFINITION_MIN_MAX]) (by norm_num)
      (by intro m hm; cases hm; norm_num [QUALITYDEFINITION_MAX])

/-! ### Association-list lemmas -/
/-! ### Association-list lemmas -/

theorem dictLookup_upsert_self {α β : Type} [DecidableEq α]
    (m : List (α × β)) (k : α) (v : β) :
    dictLookup (dictUpsert m k v) k = some v := by
  induction m with
  | nil => simp [dictUpsert, dictLookup]
  | cons p rest ih =>
      by_cases h : p.1 = k
      · simp [dictUpsert, h, dictLookup]
      · simp [dictUpsert, h, dictLookup, ih]

theorem dictLookup_upsert_ne {α β : Type} [DecidableEq α]
    (m : List (α × β)) (k : α) (v : β) (n : α) (hne : n ≠ k) :
    dictLookup (dictUpsert m k v) n = dictLookup m n := by
  have hkn : ¬ k = n := fun h => hne h.symm
  induction m with
  | nil => simp [dictUpsert, dictLookup, hkn]
  | cons p rest ih =>
      by_cases h : p.1 = k
      · have hpn : ¬ p.1 = n := fun hpn => hne (hpn.symm.trans h)
        simp [dictUpsert, h, dictLookup, hkn, hpn]
      · by_cases hpn : p.1 = n
        · simp [dictUpsert, h, dictLookup, hpn, hne]
        · simp [dictUpsert, h, dictLookup, hpn, ih]

theorem dictUpsert_eq_append {α β : Type} [DecidableEq α]
    (m : List (α × β)) (k : α) (v : β) (h : ∀ p ∈ m, p.1 ≠ k) :
    dictUpsert m k v = m ++ [(k, v)] := by
  induction m with
  | nil => rfl
  | cons p rest ih =>
      have hp : p.1 ≠ k := h p (by simp)
      simp only [dictUpsert, if_neg hp, List.cons_append, List.cons.injEq,
        true_and]
      exact ih (fun q hq => h q (by simp [hq]))

theorem dictOf_go_eq {α β : Type} [DecidableEq α] (l acc : List (α × β))
    (h : ((acc ++ l).map Prod.fst).Nodup) :
    l.foldl (fun m p => dictUpsert m p.1 p.2) acc = acc ++ l := by
  induction l generalizing acc with
  | nil => simp
  | cons p rest ih =>
      have hfresh : ∀ q ∈ acc, q.1 ≠ p.1 := by
        intro q hq hEq
        have h' := h
        rw [List.map_append, List.nodup_append] at h'
        have hdisj := h'.2.2 (List.mem_map_of_mem Prod.fst hq)
        exact hdisj (by simp [hEq])
      have hstep : dictUpsert acc p.1 p.2 = acc ++ [p] := by
        rw [dictUpsert_eq_append acc p.1 p.2 hfresh]
      have hassoc : (acc ++ [p]) ++ rest = acc ++ p :: rest := by simp
      rw [List.foldl_cons, hstep, ih (acc ++ [p]) (by rw [hassoc]; exact h),
        hassoc]

theorem dictOf_eq_of_nodup {α β : Type} [DecidableEq α] (l : List (α × β))
    (h : (l.map Prod.fst).Nodup) : dictOf l = l := by
  have := dictOf_go_eq l [] (by simpa using h)
  simpa [dictOf] using this

theorem mem_of_dictLookup_eq_some {α β : Type} [DecidableEq α]
    {m : List (α × β)} {k : α} {v : β} (h : dictLookup m k = some v) :
    (k, v) ∈ m := by
  induction m with
  | nil => simp [dictLookup] at h
  | cons p rest ih =>
      by_cases hp : p.1 = k
      · simp only [dictLookup, if_pos hp, Option.some.injEq] at h
        have hpkv : p = (k, v) := by
          cases p
          cases hp
          cases h
          rfl
        rw [← hpkv]
        exact List.mem_cons_self p rest
      · simp only [dictLookup, if_neg hp] at h
        exact List.mem_cons_of_mem p (ih h)

theorem dictLookup_eq_some_of_mem {α β : Type} [DecidableEq α]
    {m : List (α × β)} (hnd : (m.map Prod.fst).Nodup) {k : α} {v : β}
    (hm : (k, v) ∈ m) : dictLookup m k = some v := by
  induction m with
  | nil => simp at hm
  | cons p rest ih =>
      have hnd' : p.1 ∉ rest.map Prod.fst ∧ (rest.map Prod.fst).Nodup := by
        rw [List.map_cons, List.nodup_cons] at hnd
        exact hnd
      rcases List.mem_cons.mp hm with h | h
      · rw [← h]
        simp [dictLookup]
      · have hne : ¬ p.1 = k := by
          intro hEq
          exact hnd'.1 (hEq ▸ List.mem_map_of_mem Prod.fst h)
        simp only [dictLookup, if_neg hne]
        exact ih hnd'.2 h

theorem dictLookup_eq_none {α β : Type} [DecidableEq α]
    {m : List (α × β)} {k : α} (h : ∀ p ∈ m, p.1 ≠ k) :
    dictLookup m k = none := by
  induction m with
  | nil => rfl
  | cons p rest ih =>
      simp only [dictLookup, if_neg (h p (by simp))]
      exact ih (fun q hq => h q (by simp [hq]))

/-! ### External defaults documents and `_render` -/

/-- One entry of a TRaSH-Guides quality-size document's `qualities` list. -/
structure TrashQuality where
  quality : String
  min : ℚ
  preferred : ℚ
  max : Option ℚ
deriving DecidableEq, Repr

/-- One TRaSH-Guides quality-size JSON document. -/
structure TrashDoc where
  trash_id : String
  qualities : List TrashQuality
deriving DecidableEq, Repr

/-- Failures of `_render`: a pydantic validation error from constructing an
inserted `QualityDefinition`, or `ConfigTrashIDNotFoundError` (the spec's
`ReferenceNotFoundError`) carrying the unmatched reference ID. -/
inductive RenderError where
  | validation (e : ValidationError)
  | configTrashIDNotFound (trash_id : String)
deriving DecidableEq, Repr

/-- The whole quality-settings configuration object. -/
structure SonarrQualitySettingsConfig where
  trash_id : Option String
  definitions : List (String × QualityDefinition)
deriving DecidableEq, Repr

/-- The inner loop of `_render` over a matched document's `qualities` list:
for each quality name not already present, construct a `QualityDefinition`
with no title from the document's values and insert it. -/
def addQualities : List TrashQuality → List (String × QualityDefinition) →
    Except RenderError (List (String × QualityDefinition))
  | [], defs => .ok defs
  | q :: rest, defs =>
      if (dictLookup defs q.quality).isSome then addQualities rest defs
      else
        match mkQualityDefinition none q.min q.preferred q.max with
        | .error e => .error (.validation e)
        | .ok d => addQualities rest (dictUpsert defs q.quality d)

/-- The file scan of `_render` (the metadata directory's iteration order is
the list order): process the first document whose lowercased `trash_id`
equals the configured ID and return; raise `ConfigTrashIDNotFoundError`
when no document matches. -/
def renderLoop (t : String) (defs : List (String × QualityDefinition)) :
    List TrashDoc → Except RenderError (List (String × QualityDefinition))
  | [] => .error (.configTrashIDNotFound t)
  | doc :: rest =>
      if strLower doc.trash_id = t then addQualities doc.qualities defs
      else renderLoop t defs rest

/-- `_render`: a no-op when `trash_id` is falsy (unset or empty), otherwise
the scan over the metadata documents.  The Python in-place mutation of
`self.definitions` is returned as the new mapping. -/
def renderDefs (cfg : SonarrQualitySettingsConfig) (files : List TrashDoc) :
    Except RenderError (List (String × QualityDefinition)) :=
  match cfg.trash_id with
  | none => .ok cfg.definitions
  | some t =>
      if t = "" then .ok cfg.definitions else renderLoop t cfg.definitions files

theorem renderLoop_append (t : String) (defs : List (String × QualityDefinition))
    (pre rest : List TrashDoc) (hpre : ∀ d ∈ pre, strLower d.trash_id ≠ t) :
    renderLoop t defs (pre ++ rest) = renderLoop t defs rest := by
  induction pre with
  | nil => rfl
  | cons doc pre' ih =>
      have hd : strLower doc.trash_id ≠ t := hpre doc (by simp)
      simp only [List.cons_append, renderLoop, if_neg hd]
      exact ih (fun d hd' => hpre d (by simp [hd']))

theorem addQualities_preserves (qs : List TrashQuality)
    (defs defs' : List (String × QualityDefinition)) (n : String)
    (d : QualityDefinition) (hn : dictLookup defs n = some d)
    (h : addQualities qs defs = .ok defs') : dictLookup defs' n = some d := by
  induction qs generalizing defs with
  | nil =>
      simp only [addQualities, Except.ok.injEq] at h
      rw [← h]
      exact hn
  | cons q rest ih =>
      by_cases hq : (dictLookup defs q.quality).isSome
      · simp only [addQualities, if_pos hq] at h
        exact ih defs hn h
      · simp only [addQualities, if_neg hq] at h
        cases hmk : mkQualityDefinition none q.min q.preferred q.max with
        | error e => rw [hmk] at h; cases h
        | ok d0 =>
            rw [hmk] at h
            have hne : n ≠ q.quality := by
              intro hEq
              rw [hEq] at hn
              rw [hn] at hq
              exact hq rfl
            exact ih (dictUpsert defs q.quality d0)
              (by rw [dictLookup_upsert_ne defs q.quality d0 n hne]; exact hn) h

theorem addQualities_keeps_absent (qs : List TrashQuality)
    (defs defs' : List (String × QualityDefinition)) (n : String)
    (hn : dictLookup defs n = none) (hq : ∀ q ∈ qs, q.quality ≠ n)
    (h : addQualities qs defs = .ok defs') : dictLookup defs' n = none := by
  induction qs generalizing defs with
  | nil =>
      simp only [addQualities, Except.ok.injEq] at h
      rw [← h]
      exact hn
  | cons q rest ih =>
      by_cases hpq : (dictLookup defs q.quality).isSome
      · simp only [addQualities, if_pos hpq] at h
        exact ih defs hn (fun q' hq' => hq q' (by simp [hq'])) h
      · simp only [addQualities, if_neg hpq] at h
        cases hmk : mkQualityDefinition none q.min q.preferred q.max with
        | error e => rw [hmk] at h; cases h
        | ok d0 =>
            rw [hmk] at h
            have hne : n ≠ q.quality := fun hEq => hq q (by simp) hEq.symm
            exact ih (dictUpsert defs q.quality d0)
              (by rw [dictLookup_upsert_ne defs q.quality d0 n hne]; exact hn)
              (fun q' hq' => hq q' (by simp [hq'])) h

theorem addQualities_inserts (qs : List TrashQuality)
    (defs defs' : List (String × QualityDefinition))
    (hnd : (qs.map TrashQuality.quality).Nodup)
    (h : addQualities qs defs = .ok defs') :
    ∀ q ∈ qs, dictLookup defs q.quality = none →
      ∃ d, mkQualityDefinition none q.min q.preferred q.max = .ok d ∧
        dictLookup defs' q.quality = some d := by
  induction qs generalizing defs with
  | nil => intro q hq; simp at hq
  | cons q0 rest ih =>
      have hnd' : q0.quality ∉ rest.map TrashQuality.quality ∧
          (rest.map TrashQuality.quality).Nodup := by
        rw [List.map_cons, List.nodup_cons] at hnd
        exact hnd
      intro q hq hlk
      rcases List.mem_cons.mp hq with hq0 | hqr
      · subst hq0
        have hps : ¬ (dictLookup defs q.quality).isSome := by
          rw [hlk]; simp
        simp only [addQualities, if_neg hps] at h
        cases hmk : mkQualityDefinition none q.min q.preferred q.max with
        | error e => rw [hmk] at h; cases h
        | ok d0 =>
            rw [hmk] at h
            refine ⟨d0, rfl, ?_⟩
            exact addQualities_preserves rest (dictUpsert defs q.quality d0)
              defs' q.quality d0 (dictLookup_upsert_self defs q.quality d0) h
      · by_cases hpq : (dictLookup defs q0.quality).isSome
        · simp only [addQualities, if_pos hpq] at h
          exact ih defs hnd'.2 h q hqr hlk
        · simp only [addQualities, if_neg hpq] at h
          cases hmk : mkQualityDefinition none q0.min q0.preferred q0.max with
          | error e => rw [hmk] at h; cases h
          | ok d0 =>
              rw [hmk] at h
              have hne : q.quality ≠ q0.quality := by
                intro hEq
                exact hnd'.1 (hEq ▸ List.mem_map_of_mem TrashQuality.quality hqr)
              exact ih (dictUpsert defs q0.quality d0) hnd'.2 h q hqr
                (by rw [dictLookup_upsert_ne defs q0.quality d0 q.quality hne]
                    exact hlk)

/-- Claim C8: loading external defaults never replaces an existing local
entry — every quality name already in `definitions` keeps its original tier
— and every quality name present only in the matched document is inserted
as a new tier built from the document's values with no title override. -/
theorem C8_defaults_never_replace (cfg : SonarrQualitySettingsConfig)
    (t : String) (pre post : List TrashDoc) (doc : TrashDoc)
    (defs' : List (String × QualityDefinition))
    (ht : cfg.trash_id = some t) (ht0 : t ≠ "")
    (hpre : ∀ d ∈ pre, strLower d.trash_id ≠ t)
    (hdoc : strLower doc.trash_id = t)
    (hnd : (doc.qualities.map TrashQuality.quality).Nodup)
    (h : renderDefs cfg (pre ++ doc :: post) = .ok defs') :
    (∀ name d, dictLookup cfg.definitions name = some d →
      dictLookup defs' name = some d) ∧
    (∀ q ∈ doc.qualities, dictLookup cfg.definitions q.quality = none →
      ∃ d, mkQualityDefinition none q.min q.preferred q.max = .ok d ∧
        dictLookup defs' q.quality = some d) := by
  simp only [renderDefs, ht] at h
  rw [if_neg ht0] at h
  rw [renderLoop_append t cfg.definitions pre (doc :: post) hpre] at h
  rw [renderLoop, if_pos hdoc] at h
  constructor
  · intro name d hn
    exact addQualities_preserves doc.qualities cfg.definitions defs' name d hn h
  · exact addQualities_inserts doc.qualities cfg.definitions defs' hnd h

/-- Claim C8 witness: a local override `A` survives unchanged and the
document-only name `B` is inserted from the document's values. -/
theorem C8_witness :
    (∀ name d,
      dictLookup [("A", (⟨none, 1, 3, none⟩ : QualityDefinition))] name =
        some d →
      dictLookup [("A", (⟨none, 1, 3, none⟩ : QualityDefinition)),
        ("B", (⟨none, 2, 5, some 100⟩ : QualityDefinition))] name = some d) ∧
    (∀ q ∈ [(⟨"A", 5, 6, none⟩ : TrashQuality),
        (⟨"B", 2, 5, some 100⟩ : TrashQuality)],
      dictLookup [("A", (⟨none, 1, 3, none⟩ : QualityDefinition))]
        q.quality = none →
      ∃ d, mkQualityDefinition none q.min q.preferred q.max = .ok d ∧
        dictLookup [("A", (⟨none, 1, 3, none⟩ : QualityDefinition)),
          ("B", (⟨none, 2, 5, some 100⟩ : QualityDefinition))]
          q.quality = some d) :=
  C8_defaults_never_replace
    ⟨some "abc", [("A", ⟨none, 1, 3, none⟩)]⟩ "abc" [] []
    ⟨"ABC", [⟨"A", 5, 6, none⟩, ⟨"B", 2, 5, some 100⟩]⟩
    [("A", ⟨none, 1, 3, none⟩), ("B", ⟨none, 2, 5, some 100⟩)]
    rfl (by decide) (by intro d hd; cases hd) (by decide) (by decide)
    (by
      have hs : strLower "ABC" = "abc" := by decide
      have h1 : ("abc" : String) ≠ "" := by decide
      have h2 : ("A" : String) ≠ "B" := by decide
      norm_num [renderDefs, renderLoop, addQualities, dictLookup, dictUpsert,
        hs, h1, h2, mkQualityDefinition, validate_max, Except.map,
        QUALITYDEFINITION_MIN_MAX, QUALITYDEFINITION_MAX])

/-- Claim C9: a configured reference ID matching no document fails with
`ConfigTrashIDNotFoundError` naming that ID, and an unset reference ID makes
`_render` a no-op returning the definitions unchanged. -/
theorem C9_reference_not_found (cfg : SonarrQualitySettingsConfig)
    (t : String) (files : List TrashDoc) (ht : cfg.trash_id = some t)
    (ht0 : t ≠ "") (hmiss : ∀ d ∈ files, strLower d.trash_id ≠ t) :
    renderDefs cfg files = .error (.configTrashIDNotFound t) ∧
    (∀ cfg2 : SonarrQualitySettingsConfig, cfg2.trash_id = none →
      renderDefs cfg2 files = .ok cfg2.definitions) := by
  constructor
  · simp only [renderDefs, ht]
    rw [if_neg ht0]
    have hap := renderLoop_append t cfg.definitions files [] hmiss
    rw [List.append_nil] at hap
    rw [hap]
    rfl
  · intro cfg2 h2
    simp only [renderDefs, h2]

/-- Claim C9 witness at concrete inputs. -/
theorem C9_witness :
    renderDefs ⟨some "zzz", [("A", ⟨none, 1, 3, none⟩)]⟩ [⟨"abc", []⟩] =
      .error (.configTrashIDNotFound "zzz") ∧
    (∀ cfg2 : SonarrQualitySettingsConfig, cfg2.trash_id = none →
      renderDefs cfg2 [⟨"abc", []⟩] = .ok cfg2.definitions) :=
  C9_reference_not_found ⟨some "zzz", [("A", ⟨none, 1, 3, none⟩)]⟩ "zzz"
    [⟨"abc", []⟩] rfl (by decide)
    (by intro d hd
        rcases List.mem_singleton.mp hd with h
        rw [h]
        decide)

/-! ### Remote records and `update_remote` -/

/-- One raw JSON record from `GET /api/v3/qualitydefinition`: the
server-assigned `id`, the nested `quality.name`, the display `title`, the
three sizes, and the remote-only fields (`extra`) that a PUT body must carry
through unchanged. -/
structure RemoteRecord where
  id : Nat
  name : String
  title : String
  minSize : ℚ
  preferredSize : ℚ
  maxSize : Option ℚ
  extra : List (String × String)
deriving DecidableEq, Repr

/-- The element conversion of `from_remote`: a raw record becomes a
local-shape `QualityDefinition`; the title is kept only when it differs from
the quality name. -/
def fromRemoteRecord (r : RemoteRecord) : QualityDefinition :=
  { title := if r.title = r.name then none else some r.title
    min := r.minSize
    preferred := r.preferredSize
    max := r.maxSize }

/-- `from_remote`: the local-shape snapshot of the GET response, a dict
comprehension keyed by quality name (`trash_id` takes its pydantic
default). -/
def from_remote (raw : List RemoteRecord) : SonarrQualitySettingsConfig :=
  ⟨none, dictOf (raw.map (fun r => (r.name, fromRemoteRecord r)))⟩

/-- The `remote_definitions_json` dict: server-assigned ID → raw record. -/
def remote_definitions_json (raw : List RemoteRecord) :
    List (Nat × RemoteRecord) :=
  dictOf (raw.map (fun r => (r.id, r)))

/-- The `definition_ids` dict: quality name → server-assigned ID, built from
the items of `remote_definitions_json`. -/
def definition_ids (raw : List RemoteRecord) : List (String × Nat) :=
  dictOf ((remote_definitions_json raw).map (fun p => (p.2.name, p.1)))

/-- The remote-shape attribute dict returned by `get_update_remote_attrs`:
a `some` field is a changed attribute present in the dict, `none` means the
attribute is absent from the dict. -/
structure UpdateAttrs where
  title : Option String
  minSize : Option ℚ
  preferredSize : Option ℚ
  maxSize : Option (Option ℚ)
deriving DecidableEq, Repr

/-- The `title` encoder of the remote map, `lambda v: v or definition_name`:
Python falsiness sends both `None` and the empty string to the quality
name. -/
def encodeTitle (definition_name : String) (v : Option String) : String :=
  match v with
  | none => definition_name
  | some s => if s = "" then definition_name else s

/-- Modelled from the spec: `get_update_remote_attrs` lives in the `buildarr`
base framework, whose sources are not part of this repository.  Following
§4.4 of the spec, each of the four mapped fields is compared between the
local and the remote tier with its per-field comparator — the title
comparator substitutes the quality name for an unset/blank title before
comparing, since the server always stores a concrete title — giving the
per-tier "changed" flag (true iff at least one field differs) and the
minimal remote-shape attribute dict holding only the differing fields,
encoded. -/
def get_update_remote_attrs (definition_name : String)
    (loc rem : QualityDefinition) : Bool × UpdateAttrs :=
  let a : UpdateAttrs :=
    { title :=
        if encodeTitle definition_name loc.title ≠
            encodeTitle definition_name rem.title
        then some (encodeTitle definition_name loc.title) else none
      minSize := if loc.min ≠ rem.min then some loc.min else none
      preferredSize :=
        if loc.preferred ≠ rem.preferred then some loc.preferred else none
      maxSize := if loc.max ≠ rem.max then some loc.max else none }
  (a.title.isSome || a.minSize.isSome || a.preferredSize.isSome ||
    a.maxSize.isSome, a)

/-- The PUT body `{**remote_definitions_json[definition_id], **remote_attrs}`:
the full raw remote record with the changed attributes overwritten; `id`,
`quality.name` and the remote-only fields are untouched. -/
def RemoteRecord.applyAttrs (r : RemoteRecord) (a : UpdateAttrs) :
    RemoteRecord :=
  { r with
    title := a.title.getD r.title
    minSize := a.minSize.getD r.minSize
    preferredSize := a.preferredSize.getD r.preferredSize
    maxSize := a.maxSize.getD r.maxSize }

/-- One `api_put` call: the definition ID from the URL and the JSON body. -/
structure PutCall where
  id : Nat
  body : RemoteRecord
deriving DecidableEq, Repr

/-- A raised Python `KeyError` (string key or integer key). -/
inductive PyError where
  | keyError (k : String)
  | keyErrorId (k : Nat)
deriving DecidableEq, Repr

/-- The per-definition loop of `update_remote`, threading the `changed` flag
and the trace of issued `api_put` calls; a failed dict lookup raises
`KeyError`, aborting the loop with the writes issued so far. -/
def updateLoop (remoteDefs : List (String × QualityDefinition))
    (rdj : List (Nat × RemoteRecord)) (ids : List (String × Nat)) :
    List (String × QualityDefinition) → Bool → List PutCall →
    List PutCall × Except PyError Bool
  | [], changed, puts => (puts, .ok changed)
  | (definition_name, local_definition) :: rest, changed, puts =>
      match dictLookup remoteDefs definition_name with
      | none => (puts, .error (.keyError definition_name))
      | some rem =>
          let r := get_update_remote_attrs definition_name local_definition rem
          if r.1 then
            match dictLookup ids definition_name with
            | none => (puts, .error (.keyError definition_name))
            | some definition_id =>
                match dictLookup rdj definition_id with
                | none => (puts, .error (.keyErrorId definition_id))
                | some record =>
                    updateLoop remoteDefs rdj ids rest true
                      (puts ++ [⟨definition_id, record.applyAttrs r.2⟩])
          else updateLoop remoteDefs rdj ids rest changed puts

/-- `update_remote`: build the ID-keyed raw dict and the name→ID index from
the GET response, then run the per-definition loop over the local
`definitions` mapping with `changed = False`.  Returns the trace of `api_put`
calls and the outcome: the final `changed` flag, or the raised `KeyError`. -/
def update_remote (cfg remote : SonarrQualitySettingsConfig)
    (raw : List RemoteRecord) : List PutCall × Except PyError Bool :=
  updateLoop remote.definitions (remote_definitions_json raw)
    (definition_ids raw) cfg.definitions false []

/-- The per-tier "changed" result computed inside the loop for one local
entry (false when the remote snapshot lacks the name, in which case the
loop raises instead). -/
def tierChanged (remoteDefs : List (String × QualityDefinition))
    (p : String × QualityDefinition) : Bool :=
  match dictLookup remoteDefs p.1 with
  | some rem => (get_update_remote_attrs p.1 p.2 rem).1
  | none => false

/-- The PUT call one local entry gives rise to: present exactly when the
tier is marked changed and every dict lookup succeeds. -/
def tierPut (remoteDefs : List (String × QualityDefinition))
    (rdj : List (Nat × RemoteRecord)) (ids : List (String × Nat))
    (p : String × QualityDefinition) : Option PutCall :=
  match dictLookup remoteDefs p.1 with
  | none => none
  | some rem =>
      let r := get_update_remote_attrs p.1 p.2 rem
      if r.1 then
        match dictLookup ids p.1 with
        | none => none
        | some i =>
            match dictLookup rdj i with
            | none => none
            | some record => some ⟨i, record.applyAttrs r.2⟩
      else none

/-- Replace one record by the PUT body when its ID matches the PUT URL. -/
def replaceById (x : RemoteRecord) (pc : PutCall) : RemoteRecord :=
  if x.id = pc.id then pc.body else x

/-- Modelled from the spec: the server-side effect of one `api_put` (§6 of
the spec) — the record whose server-assigned ID appears in the PUT URL is
replaced by the sent body; all other records are untouched. -/
def applyPut (raw : List RemoteRecord) (pc : PutCall) : List RemoteRecord :=
  raw.map (fun r => replaceById r pc)

/-- What reconciliation leaves in the server store for one record: the
record itself when its quality name is not managed locally, otherwise the
record with the changed attributes of its local tier merged over it. -/
def reconcileRecord (localDefs : List (String × QualityDefinition))
    (r : RemoteRecord) : RemoteRecord :=
  match dictLookup localDefs r.name with
  | none => r
  | some loc =>
      r.applyAttrs (get_update_remote_attrs r.name loc (fromRemoteRecord r)).2

/-! ### Generic lookup lemmas over mapped and deduplicated lists -/

theorem dictLookup_map {α κ β : Type} [DecidableEq κ] (key : α → κ)
    (f : α → β) (l : List α) (k : κ) :
    dictLookup (l.map (fun a => (key a, f a))) k =
      (l.find? (fun a => key a = k)).map f := by
  induction l with
  | nil => rfl
  | cons a rest ih =>
      by_cases h : key a = k
      · rw [List.map_cons, List.find?_cons_of_pos _ (by simpa using h)]
        simp [dictLookup, h]
      · rw [List.map_cons, List.find?_cons_of_neg _ (by simpa using h)]
        simp only [dictLookup, ih]
        rw [if_neg h]

theorem find_eq_of_nodup_key {α κ : Type} [DecidableEq κ] (key : α → κ)
    (l : List α) (hnd : (l.map key).Nodup) (a : α) (ha : a ∈ l) :
    l.find? (fun x => key x = key a) = some a := by
  induction l with
  | nil => simp at ha
  | cons b rest ih =>
      have hnd' : key b ∉ rest.map key ∧ (rest.map key).Nodup := by
        rw [List.map_cons, List.nodup_cons] at hnd
        exact hnd
      by_cases h : key b = key a
      · rw [List.find?_cons_of_pos _ (by simpa using h)]
        rcases List.mem_cons.mp ha with hab | har
        · rw [hab]
        · exact absurd (h ▸ List.mem_map_of_mem key har) hnd'.1
      · rw [List.find?_cons_of_neg _ (by simpa using h)]
        rcases List.mem_cons.mp ha with hab | har
        · exact absurd (show key b = key a by rw [hab]) h
        · exact ih hnd'.2 har

theorem nodup_map_inj {α κ : Type} (key : α → κ) {l : List α}
    (hnd : (l.map key).Nodup) {a b : α} (ha : a ∈ l) (hb : b ∈ l)
    (hk : key a = key b) : a = b := by
  induction l with
  | nil => simp at ha
  | cons c rest ih =>
      have hnd' : key c ∉ rest.map key ∧ (rest.map key).Nodup := by
        rw [List.map_cons, List.nodup_cons] at hnd
        exact hnd
      rcases List.mem_cons.mp ha with hac | har
      · rcases List.mem_cons.mp hb with hbc | hbr
        · rw [hac, hbc]
        · exact absurd (by rw [← hac, hk]; exact List.mem_map_of_mem key hbr)
            hnd'.1
      · rcases List.mem_cons.mp hb with hbc | hbr
        · exact absurd (by rw [← hbc, ← hk]; exact List.mem_map_of_mem key har)
            hnd'.1
        · exact ih hnd'.2 har hbr

theorem mem_dictUpsert {α β : Type} [DecidableEq α]
    {m : List (α × β)} {k : α} {v : β} {p : α × β}
    (h : p ∈ dictUpsert m k v) : p = (k, v) ∨ p ∈ m := by
  induction m with
  | nil => simpa [dictUpsert] using h
  | cons q rest ih =>
      by_cases hq : q.1 = k
      · rw [dictUpsert, if_pos hq] at h
        rcases List.mem_cons.mp h with h1 | h2
        · exact Or.inl h1
        · exact Or.inr (List.mem_cons_of_mem q h2)
      · rw [dictUpsert, if_neg hq] at h
        rcases List.mem_cons.mp h with h1 | h2
        · exact Or.inr (h1 ▸ List.mem_cons_self q rest)
        · rcases ih h2 with h3 | h4
          · exact Or.inl h3
          · exact Or.inr (List.mem_cons_of_mem q h4)

theorem mem_dictOf {α β : Type} [DecidableEq α] {l : List (α × β)}
    {p : α × β} (h : p ∈ dictOf l) : p ∈ l := by
  have hgen : ∀ (l acc : List (α × β)),
      p ∈ l.foldl (fun m q => dictUpsert m q.1 q.2) acc → p ∈ acc ∨ p ∈ l := by
    intro l
    induction l with
    | nil => intro acc h0; exact Or.inl h0
    | cons q rest ih =>
        intro acc h0
        rw [List.foldl_cons] at h0
        rcases ih (dictUpsert acc q.1 q.2) h0 with h1 | h2
        · rcases mem_dictUpsert h1 with h3 | h4
          · exact Or.inr (h3 ▸ List.mem_cons_self q rest)
          · exact Or.inl h4
        · exact Or.inr (List.mem_cons_of_mem q h2)
  rcases hgen l [] h with h1 | h2
  · simp at h1
  · exact h2

theorem dictLookup_isSome_of_mem {α β : Type} [DecidableEq α]
    {m : List (α × β)} {p : α × β} (h : p ∈ m) :
    (dictLookup m p.1).isSome = true := by
  induction m with
  | nil => simp at h
  | cons q rest ih =>
      by_cases hq : q.1 = p.1
      · simp [dictLookup, hq]
      · rcases List.mem_cons.mp h with h1 | h2
        · exact absurd (by rw [h1]) hq
        · simp only [dictLookup, if_neg hq]
          exact ih h2

/-! ### Resolving the two index dicts back to raw records -/

theorem rdj_lookup_mem {raw : List RemoteRecord} {i : Nat} {r : RemoteRecord}
    (h : dictLookup (remote_definitions_json raw) i = some r) :
    r ∈ raw ∧ r.id = i := by
  have h1 : (i, r) ∈ remote_definitions_json raw := mem_of_dictLookup_eq_some h
  have h2 := mem_dictOf h1
  rcases List.mem_map.mp h2 with ⟨r', hr', hEq⟩
  have hr : r' = r := congrArg Prod.snd hEq
  have hi : r'.id = i := congrArg Prod.fst hEq
  rw [← hr]
  exact ⟨hr', hi⟩

theorem definition_ids_lookup_mem {raw : List RemoteRecord} {n : String}
    {i : Nat} (h : dictLookup (definition_ids raw) n = some i) :
    ∃ r ∈ raw, r.id = i ∧ r.name = n := by
  have h1 : (n, i) ∈ definition_ids raw := mem_of_dictLookup_eq_some h
  have h2 := mem_dictOf h1
  rcases List.mem_map.mp h2 with ⟨p, hp, hEq⟩
  have hn : p.2.name = n := congrArg Prod.fst hEq
  have hi : p.1 = i := congrArg Prod.snd hEq
  have h3 := mem_dictOf hp
  rcases List.mem_map.mp h3 with ⟨r', hr', hEq'⟩
  have hr : r' = p.2 := congrArg Prod.snd hEq'
  have hid : r'.id = p.1 := congrArg Prod.fst hEq'
  exact ⟨r', hr', by rw [hid, hi], by rw [hr, hn]⟩

/-! ### Characterizing `updateLoop` -/

theorem tierPut_eq_some {remoteDefs : List (String × QualityDefinition)}
    {rdj : List (Nat × RemoteRecord)} {ids : List (String × Nat)}
    {p : String × QualityDefinition} {pc : PutCall}
    (h : tierPut remoteDefs rdj ids p = some pc) :
    ∃ rem i record, dictLookup remoteDefs p.1 = some rem ∧
      (get_update_remote_attrs p.1 p.2 rem).1 = true ∧
      dictLookup ids p.1 = some i ∧ dictLookup rdj i = some record ∧
      pc = ⟨i, record.applyAttrs (get_update_remote_attrs p.1 p.2 rem).2⟩ := by
  cases hrem : dictLookup remoteDefs p.1 with
  | none => simp only [tierPut, hrem] at h; cases h
  | some rem =>
      simp only [tierPut, hrem] at h
      by_cases hr : (get_update_remote_attrs p.1 p.2 rem).1 = true
      · rw [if_pos hr] at h
        cases hid : dictLookup ids p.1 with
        | none => rw [hid] at h; cases h
        | some i =>
            rw [hid] at h
            dsimp only at h
            cases hrec : dictLookup rdj i with
            | none => rw [hrec] at h; cases h
            | some record =>
                rw [hrec] at h
                dsimp only at h
                injection h with h2
                exact ⟨rem, i, record, rfl, hr, rfl, hrec, h2.symm⟩
      · rw [if_neg hr] at h
        cases h

theorem tierChanged_of_tierPut_some
    {remoteDefs : List (String × QualityDefinition)}
    {rdj : List (Nat × RemoteRecord)} {ids : List (String × Nat)}
    {p : String × QualityDefinition} {pc : PutCall}
    (h : tierPut remoteDefs rdj ids p = some pc) :
    tierChanged remoteDefs p = true := by
  obtain ⟨rem, i, record, hrem, hr, _, _, _⟩ := tierPut_eq_some h
  simp only [tierChanged, hrem]
  exact hr

theorem tierPut_none_of_not_changed
    {remoteDefs : List (String × QualityDefinition)}
    {rdj : List (Nat × RemoteRecord)} {ids : List (String × Nat)}
    {p : String × QualityDefinition}
    (h : tierChanged remoteDefs p = false) :
    tierPut remoteDefs rdj ids p = none := by
  cases hrem : dictLookup remoteDefs p.1 with
  | none => simp only [tierPut, hrem]
  | some rem =>
      simp only [tierChanged, hrem] at h
      simp only [tierPut, hrem]
      rw [if_neg (by simp [h])]

theorem updateLoop_ok (remoteDefs : List (String × QualityDefinition))
    (rdj : List (Nat × RemoteRecord)) (ids : List (String × Nat)) :
    ∀ (defs : List (String × QualityDefinition)) (changed : Bool)
      (puts puts' : List PutCall) (b : Bool),
      updateLoop remoteDefs rdj ids defs changed puts = (puts', .ok b) →
      puts' = puts ++ defs.filterMap (tierPut remoteDefs rdj ids) ∧
      b = (changed || defs.any (tierChanged remoteDefs)) ∧
      (∀ p ∈ defs, (dictLookup remoteDefs p.1).isSome = true ∧
        (tierChanged remoteDefs p = true →
          (tierPut remoteDefs rdj ids p).isSome = true)) := by
  intro defs
  induction defs with
  | nil =>
      intro changed puts puts' b h
      simp only [updateLoop, Prod.mk.injEq, Except.ok.injEq] at h
      refine ⟨by simp [h.1], by simp [h.2], by simp⟩
  | cons p rest ih =>
      intro changed puts puts' b h
      obtain ⟨n, loc⟩ := p
      cases hrem : dictLookup remoteDefs n with
      | none =>
          simp only [updateLoop, hrem, Prod.mk.injEq] at h
          exact absurd h.2 (by simp)
      | some rem =>
          simp only [updateLoop, hrem] at h
          by_cases hr : (get_update_remote_attrs n loc rem).1 = true
          · rw [if_pos hr] at h
            cases hid : dictLookup ids n with
            | none =>
                rw [hid] at h
                simp only [Prod.mk.injEq] at h
                exact absurd h.2 (by simp)
            | some i =>
                rw [hid] at h
                dsimp only at h
                cases hrec : dictLookup rdj i with
                | none =>
                    rw [hrec] at h
                    simp only [Prod.mk.injEq] at h
                    exact absurd h.2 (by simp)
                | some record =>
                    rw [hrec] at h
                    obtain ⟨ih1, ih2, ih3⟩ := ih true
                      (puts ++ [⟨i, record.applyAttrs
                        (get_update_remote_attrs n loc rem).2⟩]) puts' b h
                    have hput : tierPut remoteDefs rdj ids (n, loc) =
                        some ⟨i, record.applyAttrs
                          (get_update_remote_attrs n loc rem).2⟩ := by
                      simp only [tierPut, hrem, hid, hrec]
                      rw [if_pos hr]
                    have htc : tierChanged remoteDefs (n, loc) = true := by
                      simp only [tierChanged, hrem]
                      exact hr
                    refine ⟨?_, ?_, ?_⟩
                    · rw [List.filterMap_cons, hput, ih1]
                      simp
                    · rw [List.any_cons, htc, ih2]
                      simp
                    · intro q hq
                      rcases List.mem_cons.mp hq with h1 | h2
                      · subst h1
                        exact ⟨by simp [hrem], fun _ => by simp [hput]⟩
                      · exact ih3 q h2
          · rw [if_neg hr] at h
            obtain ⟨ih1, ih2, ih3⟩ := ih changed puts puts' b h
            have hfalse : (get_update_remote_attrs n loc rem).1 = false := by
              simpa using hr
            have hput : tierPut remoteDefs rdj ids (n, loc) = none := by
              simp only [tierPut, hrem]
              rw [if_neg hr]
            have htc : tierChanged remoteDefs (n, loc) = false := by
              simp only [tierChanged, hrem]
              exact hfalse
            refine ⟨?_, ?_, ?_⟩
            · rw [List.filterMap_cons, hput, ih1]
            · rw [List.any_cons, htc, ih2]
              simp
            · intro q hq
              rcases List.mem_cons.mp hq with h1 | h2
              · subst h1
                refine ⟨by simp [hrem], fun hc => ?_⟩
                rw [htc] at hc
                cases hc
              · exact ih3 q h2

theorem updateLoop_puts_sub (remoteDefs : List (String × QualityDefinition))
    (rdj : List (Nat × RemoteRecord)) (ids : List (String × Nat)) :
    ∀ (defs : List (String × QualityDefinition)) (changed : Bool)
      (puts : List PutCall) (pc : PutCall),
      pc ∈ (updateLoop remoteDefs rdj ids defs changed puts).1 →
      pc ∈ puts ∨ ∃ p ∈ defs, tierPut remoteDefs rdj ids p = some pc := by
  intro defs
  induction defs with
  | nil =>
      intro changed puts pc h
      exact Or.inl (by simpa [updateLoop] using h)
  | cons p rest ih =>
      intro changed puts pc h
      obtain ⟨n, loc⟩ := p
      cases hrem : dictLookup remoteDefs n with
      | none =>
          simp only [updateLoop, hrem] at h
          exact Or.inl h
      | some rem =>
          simp only [updateLoop, hrem] at h
          by_cases hr : (get_update_remote_attrs n loc rem).1 = true
          · rw [if_pos hr] at h
            cases hid : dictLookup ids n with
            | none =>
                rw [hid] at h
                exact Or.inl h
            | some i =>
                rw [hid] at h
                dsimp only at h
                cases hrec : dictLookup rdj i with
                | none =>
                    rw [hrec] at h
                    exact Or.inl h
                | some record =>
                    rw [hrec] at h
                    dsimp only at h
                    rcases ih true (puts ++ [⟨i, record.applyAttrs
                        (get_update_remote_attrs n loc rem).2⟩]) pc h with
                      h1 | ⟨q, hq, hqp⟩
                    · rcases List.mem_append.mp h1 with h2 | h3
                      · exact Or.inl h2
                      · right
                        refine ⟨(n, loc), List.mem_cons_self _ _, ?_⟩
                        have hput : tierPut remoteDefs rdj ids (n, loc) =
                            some ⟨i, record.applyAttrs
                              (get_update_remote_attrs n loc rem).2⟩ := by
                          simp only [tierPut, hrem, hid, hrec]
                          rw [if_pos hr]
                        rw [hput]
                        rw [List.mem_singleton.mp h3]
                    · exact Or.inr ⟨q, List.mem_cons_of_mem _ hq, hqp⟩
          · rw [if_neg hr] at h
            rcases ih changed puts pc h with h1 | ⟨q, hq, hqp⟩
            · exact Or.inl h1
            · exact Or.inr ⟨q, List.mem_cons_of_mem _ hq, hqp⟩

theorem updateLoop_no_changes (remoteDefs : List (String × QualityDefinition))
    (rdj : List (Nat × RemoteRecord)) (ids : List (String × Nat)) :
    ∀ (defs : List (String × QualityDefinition)) (changed : Bool)
      (puts : List PutCall),
      (∀ p ∈ defs, ∃ rem, dictLookup remoteDefs p.1 = some rem ∧
        (get_update_remote_attrs p.1 p.2 rem).1 = false) →
      updateLoop remoteDefs rdj ids defs changed puts = (puts, .ok changed) := by
  intro defs
  induction defs with
  | nil => intro changed puts _; rfl
  | cons p rest ih =>
      intro changed puts hall
      obtain ⟨n, loc⟩ := p
      obtain ⟨rem, hrem, hfalse⟩ := hall (n, loc) (List.mem_cons_self _ _)
      simp only [updateLoop, hrem]
      rw [if_neg (by simp [hfalse])]
      exact ih changed puts (fun q hq => hall q (List.mem_cons_of_mem _ hq))

theorem updateLoop_error_of_missing
    (remoteDefs : List (String × QualityDefinition))
    (rdj : List (Nat × RemoteRecord)) (ids : List (String × Nat)) :
    ∀ (defs : List (String × QualityDefinition)) (changed : Bool)
      (puts : List PutCall),
      (∃ p ∈ defs, dictLookup remoteDefs p.1 = none) →
      ∃ e, (updateLoop remoteDefs rdj ids defs changed puts).2 = .error e := by
  intro defs
  induction defs with
  | nil => intro changed puts h; simp at h
  | cons p rest ih =>
      intro changed puts hex
      obtain ⟨n, loc⟩ := p
      cases hrem : dictLookup remoteDefs n with
      | none =>
          refine ⟨.keyError n, ?_⟩
          simp [updateLoop, hrem]
      | some rem =>
          have hrest : ∃ q ∈ rest, dictLookup remoteDefs q.1 = none := by
            obtain ⟨q, hq, hqn⟩ := hex
            rcases List.mem_cons.mp hq with h1 | h2
            · rw [h1] at hqn
              simp only at hqn
              rw [hrem] at hqn
              cases hqn
            · exact ⟨q, h2, hqn⟩
          simp only [updateLoop, hrem]
          by_cases hr : (get_update_remote_attrs n loc rem).1 = true
          · rw [if_pos hr]
            cases hid : dictLookup ids n with
            | none => exact ⟨.keyError n, by simp⟩
            | some i =>
                dsimp only
                cases hrec : dictLookup rdj i with
                | none => exact ⟨.keyErrorId i, by simp⟩
                | some record =>
                    dsimp only
                    exact ih true _ hrest
          · rw [if_neg hr]
            exact ih changed puts hrest

/-! ### Claims C1, C3, C10 -/

/-- Claim C1: when `update_remote` returns normally, the returned flag is
the logical OR of the per-tier changed results, it is true exactly when at
least one write was issued, every issued write is the write of a local tier
differing from its remote tier in at least one compared field, and a tier
whose fields all compare equal contributes no write. -/
theorem C1_writes_only_changed_tiers (cfg remote : SonarrQualitySettingsConfig)
    (raw : List RemoteRecord) (puts : List PutCall) (b : Bool)
    (h : update_remote cfg remote raw = (puts, .ok b)) :
    b = cfg.definitions.any (tierChanged remote.definitions) ∧
    (b = true ↔ puts ≠ []) ∧
    (∀ pc ∈ puts, ∃ p ∈ cfg.definitions,
      tierChanged remote.definitions p = true ∧
      tierPut remote.definitions (remote_definitions_json raw)
        (definition_ids raw) p = some pc) ∧
    (∀ p ∈ cfg.definitions, tierChanged remote.definitions p = false →
      tierPut remote.definitions (remote_definitions_json raw)
        (definition_ids raw) p = none) := by
  obtain ⟨h1, h2, h3⟩ := updateLoop_ok remote.definitions
    (remote_definitions_json raw) (definition_ids raw) cfg.definitions
    false [] puts b h
  rw [List.nil_append] at h1
  have hb : b = cfg.definitions.any (tierChanged remote.definitions) := by
    rw [h2]; simp
  refine ⟨hb, ⟨?_, ?_⟩, ?_, ?_⟩
  · intro hbt
    rw [hb] at hbt
    rcases List.any_eq_true.mp hbt with ⟨p, hp, hcp⟩
    rcases Option.isSome_iff_exists.mp ((h3 p hp).2 hcp) with ⟨pc, hpc⟩
    have hmem : pc ∈ puts := by
      rw [h1]
      exact List.mem_filterMap.mpr ⟨p, hp, hpc⟩
    exact List.ne_nil_of_mem hmem
  · intro hne
    rcases List.exists_mem_of_ne_nil puts hne with ⟨pc, hpc⟩
    rw [h1] at hpc
    rcases List.mem_filterMap.mp hpc with ⟨p, hp, hput⟩
    rw [hb]
    exact List.any_eq_true.mpr ⟨p, hp, tierChanged_of_tierPut_some hput⟩
  · intro pc hpc
    rw [h1] at hpc
    rcases List.mem_filterMap.mp hpc with ⟨p, hp, hput⟩
    exact ⟨p, hp, tierChanged_of_tierPut_some hput, hput⟩
  · intro p _ hfc
    exact tierPut_none_of_not_changed hfc

/-- Concrete fixture: remote record for quality `A`, in sync with the local
tier; carries a remote-only field. -/
def rawA : RemoteRecord := ⟨1, "A", "A", 1, 3, none, [("srv", "keep")]⟩

/-- Concrete fixture: remote record for quality `B`, whose local tier has a
different `min`. -/
def rawB : RemoteRecord := ⟨2, "B", "B", 1, 5, some 100, []⟩

/-- Concrete fixture: local configuration managing `A` (unchanged) and `B`
(`min` 2 against the remote 1). -/
def cfgAB : SonarrQualitySettingsConfig :=
  ⟨none, [("A", ⟨none, 1, 3, none⟩), ("B", ⟨none, 2, 5, some 100⟩)]⟩

/-- Concrete fixture: the single PUT issued for `B` — the full copy of
`rawB` with only `minSize` replaced. -/
def putB : PutCall := ⟨2, ⟨2, "B", "B", 2, 5, some 100, []⟩⟩

/-- Evaluation of the fixture run: only `B` is written, and the run reports
a change. -/
theorem update_remote_cfgAB_eval :
    update_remote cfgAB (from_remote [rawA, rawB]) [rawA, rawB] =
      ([putB], .ok true) := by
  have hAB : ("A" : String) ≠ "B" := by decide
  have hBA : ("B" : String) ≠ "A" := by decide
  norm_num [update_remote, updateLoop, cfgAB, rawA, rawB, putB, from_remote,
    fromRemoteRecord, remote_definitions_json, definition_ids, dictOf,
    dictUpsert, dictLookup, get_update_remote_attrs, encodeTitle,
    RemoteRecord.applyAttrs, hAB, hBA]

/-- Claim C1 witness at the concrete fixture run. -/
theorem C1_witness :
    (true : Bool) = cfgAB.definitions.any
        (tierChanged (from_remote [rawA, rawB]).definitions) ∧
    ((true : Bool) = true ↔ [putB] ≠ []) ∧
    (∀ pc ∈ [putB], ∃ p ∈ cfgAB.definitions,
      tierChanged (from_remote [rawA, rawB]).definitions p = true ∧
      tierPut (from_remote [rawA, rawB]).definitions
        (remote_definitions_json [rawA, rawB]) (definition_ids [rawA, rawB])
        p = some pc) ∧
    (∀ p ∈ cfgAB.definitions,
      tierChanged (from_remote [rawA, rawB]).definitions p = false →
      tierPut (from_remote [rawA, rawB]).definitions
        (remote_definitions_json [rawA, rawB]) (definition_ids [rawA, rawB])
        p = none) :=
  C1_writes_only_changed_tiers cfgAB (from_remote [rawA, rawB]) [rawA, rawB]
    [putB] true update_remote_cfgAB_eval

/-- Claim C3: quality names present remotely but absent locally are never
written — every issued PUT, also in a run that later raises, targets the ID
of a locally-managed name's record — and, the server store having unique
IDs, a remote-only record survives all the run's writes untouched; nothing
is ever deleted. -/
theorem C3_remote_only_untouched (cfg remote : SonarrQualitySettingsConfig)
    (raw : List RemoteRecord) (r : RemoteRecord)
    (hids : (raw.map RemoteRecord.id).Nodup) (hr : r ∈ raw)
    (habs : dictLookup cfg.definitions r.name = none) :
    (∀ pc ∈ (update_remote cfg remote raw).1, pc.id ≠ r.id) ∧
    r ∈ ((update_remote cfg remote raw).1).foldl applyPut raw := by
  have hput_ids : ∀ pc ∈ (update_remote cfg remote raw).1, pc.id ≠ r.id := by
    intro pc hpc
    rcases updateLoop_puts_sub remote.definitions (remote_definitions_json raw)
        (definition_ids raw) cfg.definitions false [] pc hpc with
      h1 | ⟨p, hp, hput⟩
    · simp at h1
    · obtain ⟨rem, i, record, _, _, hlkid, _, hpc_eq⟩ := tierPut_eq_some hput
      rcases definition_ids_lookup_mem hlkid with ⟨r2, hr2, hr2id, hr2name⟩
      intro hEq
      have hpcid : pc.id = i := by rw [hpc_eq]
      have hr2r : r2 = r :=
        nodup_map_inj RemoteRecord.id hids hr2 hr
          (by rw [hr2id, ← hpcid, hEq])
      have hname : r.name = p.1 := by rw [← hr2r, hr2name]
      have hsome := dictLookup_isSome_of_mem hp
      rw [← hname, habs] at hsome
      cases hsome
  refine ⟨hput_ids, ?_⟩
  have hkeep : ∀ (puts : List PutCall) (cur : List RemoteRecord), r ∈ cur →
      (∀ pc ∈ puts, pc.id ≠ r.id) → r ∈ puts.foldl applyPut cur := by
    intro puts
    induction puts with
    | nil => intro cur h1 _; exact h1
    | cons pc rest ih =>
        intro cur h1 h2
        rw [List.foldl_cons]
        apply ih
        · have hrep : replaceById r pc = r := by
            unfold replaceById
            rw [if_neg (fun hEq =>
              (h2 pc (List.mem_cons_self _ _)) hEq.symm)]
          unfold applyPut
          rw [← hrep]
          exact List.mem_map_of_mem _ h1
        · intro pc' hpc'
          exact h2 pc' (List.mem_cons_of_mem _ hpc')
  exact hkeep _ raw hr hput_ids

/-- Concrete fixture: local configuration managing only `B`. -/
def cfgB : SonarrQualitySettingsConfig :=
  ⟨none, [("B", ⟨none, 2, 5, some 100⟩)]⟩

/-- Claim C3 witness: the remote-only record `A` is never written and
survives the fixture run. -/
theorem C3_witness :
    (∀ pc ∈ (update_remote cfgB (from_remote [rawA, rawB]) [rawA, rawB]).1,
      pc.id ≠ rawA.id) ∧
    rawA ∈ ((update_remote cfgB (from_remote [rawA, rawB])
      [rawA, rawB]).1).foldl applyPut [rawA, rawB] :=
  C3_remote_only_untouched cfgB (from_remote [rawA, rawB]) [rawA, rawB] rawA
    (by decide) (by decide) (by decide)

/-- Claim C10: `update_remote` presupposes every locally-managed quality
name to be present in the remote snapshot — a local name absent from
`remote.definitions` makes the run raise an unhandled `KeyError` — and the
run never creates a record: every PUT targets an ID found in the GET
response. -/
theorem C10_missing_name_raises (cfg remote : SonarrQualitySettingsConfig)
    (raw : List RemoteRecord) (n : String) (loc : QualityDefinition)
    (hmem : (n, loc) ∈ cfg.definitions)
    (habs : dictLookup remote.definitions n = none) :
    (∃ e, (update_remote cfg remote raw).2 = .error e) ∧
    (∀ pc ∈ (update_remote cfg remote raw).1, ∃ r ∈ raw, pc.id = r.id) := by
  constructor
  · exact updateLoop_error_of_missing remote.definitions
      (remote_definitions_json raw) (definition_ids raw) cfg.definitions
      false [] ⟨(n, loc), hmem, habs⟩
  · intro pc hpc
    rcases updateLoop_puts_sub remote.definitions (remote_definitions_json raw)
        (definition_ids raw) cfg.definitions false [] pc hpc with
      h1 | ⟨p, hp, hput⟩
    · simp at h1
    · obtain ⟨rem, i, record, _, _, hlkid, _, hpc_eq⟩ := tierPut_eq_some hput
      rcases definition_ids_lookup_mem hlkid with ⟨r2, hr2, hr2id, _⟩
      exact ⟨r2, hr2, by rw [hpc_eq, hr2id]⟩

/-- Claim C10 witness: a local-only name `A` with an empty remote makes the
run raise, and no PUT is issued at all. -/
theorem C10_witness :
    (∃ e, (update_remote ⟨none, [("A", ⟨none, 1, 3, none⟩)]⟩
      ⟨none, []⟩ []).2 = .error e) ∧
    (∀ pc ∈ (update_remote ⟨none, [("A", ⟨none, 1, 3, none⟩)]⟩
        ⟨none, []⟩ []).1,
      ∃ r ∈ ([] : List RemoteRecord), pc.id = r.id) :=
  C10_missing_name_raises ⟨none, [("A", ⟨none, 1, 3, none⟩)]⟩ ⟨none, []⟩ []
    "A" ⟨none, 1, 3, none⟩ (List.mem_cons_self _ _) rfl

/-! ### Claim C4 -/

theorem countP_filterMap_eq {γ δ : Type} (f : γ → Option δ) (pred : δ → Bool)
    (l : List γ) :
    (l.filterMap f).countP pred =
      l.countP (fun q => ((f q).map pred).getD false) := by
  induction l with
  | nil => rfl
  | cons q rest ih =>
      rw [List.filterMap_cons]
      cases hf : f q with
      | none => simp [List.countP_cons, hf, ih]
      | some d => simp [List.countP_cons, hf, ih]

theorem countP_eq_one_of_unique {γ : Type} (l : List γ) (pr : γ → Bool)
    (a : γ) (hl : l.Nodup) (ha : a ∈ l) (hpa : pr a = true)
    (hu : ∀ b ∈ l, pr b = true → b = a) : l.countP pr = 1 := by
  induction l with
  | nil => simp at ha
  | cons c rest ih =>
      have hnd := List.nodup_cons.mp hl
      rw [List.countP_cons]
      rcases List.mem_cons.mp ha with h1 | h2
      · have hrest0 : rest.countP pr = 0 := by
          rw [List.countP_eq_zero]
          intro b hb hpb
          have hba : b = a := hu b (List.mem_cons_of_mem _ hb) hpb
          rw [hba, h1] at hb
          exact hnd.1 hb
        rw [hrest0, ← h1, hpa]
        rfl
      · have hc : ¬ pr c = true := by
          intro hpc
          have hca : c = a := hu c (List.mem_cons_self _ _) hpc
          rw [hca] at hnd
          exact hnd.1 h2
        rw [ih hnd.2 h2
          (fun b hb hpb => hu b (List.mem_cons_of_mem _ hb) hpb)]
        simp [hc]

theorem applyAttrs_fields (n : String) (loc rem : QualityDefinition)
    (record : RemoteRecord) :
    (record.applyAttrs (get_update_remote_attrs n loc rem).2).id =
      record.id ∧
    (record.applyAttrs (get_update_remote_attrs n loc rem).2).name =
      record.name ∧
    (record.applyAttrs (get_update_remote_attrs n loc rem).2).extra =
      record.extra ∧
    (record.applyAttrs (get_update_remote_attrs n loc rem).2).title =
      (if encodeTitle n loc.title ≠ encodeTitle n rem.title
       then encodeTitle n loc.title else record.title) ∧
    (record.applyAttrs (get_update_remote_attrs n loc rem).2).minSize =
      (if loc.min ≠ rem.min then loc.min else record.minSize) ∧
    (record.applyAttrs (get_update_remote_attrs n loc rem).2).preferredSize =
      (if loc.preferred ≠ rem.preferred then loc.preferred
       else record.preferredSize) ∧
    (record.applyAttrs (get_update_remote_attrs n loc rem).2).maxSize =
      (if loc.max ≠ rem.max then loc.max else record.maxSize) := by
  refine ⟨rfl, rfl, rfl, ?_, ?_, ?_, ?_⟩
  · by_cases hc : encodeTitle n loc.title ≠ encodeTitle n rem.title <;>
      simp [RemoteRecord.applyAttrs, get_update_remote_attrs, hc]
  · by_cases hc : loc.min ≠ rem.min <;>
      simp [RemoteRecord.applyAttrs, get_update_remote_attrs, hc]
  · by_cases hc : loc.preferred ≠ rem.preferred <;>
      simp [RemoteRecord.applyAttrs, get_update_remote_attrs, hc]
  · by_cases hc : loc.max ≠ rem.max <;>
      simp [RemoteRecord.applyAttrs, get_update_remote_attrs, hc]

/-- Claim C4: in a normally-returning run over a server store with unique
IDs and a locally duplicate-free mapping, every tier marked
changed resolves its server-assigned ID through the name→ID index, exactly
one PUT in the trace targets that ID, and that PUT's body is the tier's full
original raw record with exactly the changed attributes replaced — `id`,
`quality.name` and all remote-only fields preserved, each unchanged field
kept at the remote value, each changed one set to the (encoded) local
value. -/
theorem C4_merge_into_raw_record (cfg remote : SonarrQualitySettingsConfig)
    (raw : List RemoteRecord) (puts : List PutCall) (b : Bool)
    (hL : (cfg.definitions.map Prod.fst).Nodup)
    (hI : (raw.map RemoteRecord.id).Nodup)
    (h : update_remote cfg remote raw = (puts, .ok b)) :
    ∀ p ∈ cfg.definitions, tierChanged remote.definitions p = true →
      ∃ rem i record,
        dictLookup remote.definitions p.1 = some rem ∧
        dictLookup (definition_ids raw) p.1 = some i ∧
        dictLookup (remote_definitions_json raw) i = some record ∧
        (⟨i, record.applyAttrs (get_update_remote_attrs p.1 p.2 rem).2⟩ :
          PutCall) ∈ puts ∧
        puts.countP (fun pc => pc.id == i) = 1 ∧
        (∀ pc ∈ puts, pc.id = i →
          pc.body.id = record.id ∧ pc.body.name = record.name ∧
          pc.body.extra = record.extra ∧
          pc.body.title =
            (if encodeTitle p.1 p.2.title ≠ encodeTitle p.1 rem.title
             then encodeTitle p.1 p.2.title else record.title) ∧
          pc.body.minSize =
            (if p.2.min ≠ rem.min then p.2.min else record.minSize) ∧
          pc.body.preferredSize =
            (if p.2.preferred ≠ rem.preferred then p.2.preferred
             else record.preferredSize) ∧
          pc.body.maxSize =
            (if p.2.max ≠ rem.max then p.2.max else record.maxSize)) := by
  obtain ⟨h1, _, h3⟩ := updateLoop_ok remote.definitions
    (remote_definitions_json raw) (definition_ids raw) cfg.definitions
    false [] puts b h
  rw [List.nil_append] at h1
  intro p hp hcp
  rcases Option.isSome_iff_exists.mp ((h3 p hp).2 hcp) with ⟨pc0, hpc0⟩
  obtain ⟨rem, i, record, hrem, _, hlkid, hlkrec, hpc0_eq⟩ :=
    tierPut_eq_some hpc0
  rcases definition_ids_lookup_mem hlkid with ⟨r1, hr1, hr1id, hr1name⟩
  -- a local entry whose PUT targets this ID is this very entry
  have hqkey : ∀ q ∈ cfg.definitions, ∀ pc,
      tierPut remote.definitions (remote_definitions_json raw)
        (definition_ids raw) q = some pc → pc.id = i → q = p := by
    intro q hq pc hqput hpcid
    obtain ⟨remq, iq, recordq, _, _, hlkidq, _, hpcq_eq⟩ :=
      tierPut_eq_some hqput
    have hiq : iq = i := by
      rw [hpcq_eq] at hpcid
      exact hpcid
    rcases definition_ids_lookup_mem hlkidq with ⟨r2, hr2, hr2id, hr2name⟩
    have hr12 : r2 = r1 :=
      nodup_map_inj RemoteRecord.id hI hr2 hr1 (by rw [hr2id, hr1id, hiq])
    have hkey : q.1 = p.1 := by rw [← hr2name, hr12, hr1name]
    exact nodup_map_inj Prod.fst hL hq hp hkey
  have huniq : ∀ pc ∈ puts, pc.id = i → pc = pc0 := by
    intro pc hpc hpcid
    rw [h1] at hpc
    rcases List.mem_filterMap.mp hpc with ⟨q, hq, hqput⟩
    have hqp : q = p := hqkey q hq pc hqput hpcid
    rw [hqp] at hqput
    rw [hqput] at hpc0
    exact ((Option.some.injEq _ _).mp hpc0.symm).symm
  have hpc0mem : pc0 ∈ puts := by
    rw [h1]
    exact List.mem_filterMap.mpr ⟨p, hp, hpc0⟩
  have hpc0id : pc0.id = i := by rw [hpc0_eq]
  refine ⟨rem, i, record, hrem, hlkid, hlkrec,
    by rw [← hpc0_eq]; exact hpc0mem, ?_, ?_⟩
  · rw [h1, countP_filterMap_eq]
    apply countP_eq_one_of_unique cfg.definitions _ p (List.Nodup.of_map _ hL)
      hp
    · rw [hpc0]
      simp [hpc0id]
    · intro q hq hprq
      cases hqput : tierPut remote.definitions (remote_definitions_json raw)
          (definition_ids raw) q with
      | none => rw [hqput] at hprq; simp at hprq
      | some pc =>
          rw [hqput] at hprq
          simp at hprq
          exact hqkey q hq pc hqput hprq
  · intro pc hpc hpcid
    have hpceq := huniq pc hpc hpcid
    rw [hpceq, hpc0_eq]
    exact applyAttrs_fields p.1 p.2 rem record

/-- Claim C4 witness at the concrete fixture run, instantiated at the
changed tier `B`: the ID resolves to 2, exactly one PUT targets it, and its
body merges only `minSize` into the full copy of `rawB`. -/
theorem C4_witness :
    ∃ rem i record,
      dictLookup (from_remote [rawA, rawB]).definitions "B" = some rem ∧
      dictLookup (definition_ids [rawA, rawB]) "B" = some i ∧
      dictLookup (remote_definitions_json [rawA, rawB]) i = some record ∧
      (⟨i, record.applyAttrs (get_update_remote_attrs "B"
        ⟨none, 2, 5, some 100⟩ rem).2⟩ : PutCall) ∈ [putB] ∧
      [putB].countP (fun pc => pc.id == i) = 1 ∧
      (∀ pc ∈ [putB], pc.id = i →
        pc.body.id = record.id ∧ pc.body.name = record.name ∧
        pc.body.extra = record.extra ∧
        pc.body.title =
          (if "B" ≠ encodeTitle "B" rem.title then "B" else record.title) ∧
        pc.body.minSize =
          (if (2 : ℚ) ≠ rem.min then (2 : ℚ) else record.minSize) ∧
        pc.body.preferredSize =
          (if (5 : ℚ) ≠ rem.preferred then (5 : ℚ)
           else record.preferredSize) ∧
        pc.body.maxSize =
          (if (some (100 : ℚ)) ≠ rem.max then (some (100 : ℚ))
           else record.maxSize)) :=
  C4_merge_into_raw_record cfgAB (from_remote [rawA, rawB]) [rawA, rawB]
    [putB] true (by decide) (by decide) update_remote_cfgAB_eval
    ("B", ⟨none, 2, 5, some 100⟩) (by decide) (by decide)

/-! ### Claim C2: stability of one reconciled tier -/

theorem encodeTitle_cases (n : String) (v : Option String) :
    encodeTitle n v = n ∨ encodeTitle n v ≠ "" := by
  cases v with
  | none => exact Or.inl rfl
  | some s =>
      by_cases hs : s = ""
      · exact Or.inl (by simp [encodeTitle, hs])
      · exact Or.inr (by simp [encodeTitle, hs])

theorem encodeTitle_fromRemote (n : String) (x : RemoteRecord)
    (hx : x.name = n) :
    encodeTitle n (fromRemoteRecord x).title =
      (if x.title = "" then n else x.title) := by
  simp only [fromRemoteRecord, hx]
  by_cases h : x.title = n
  · rw [if_pos h, h]
    show n = if n = "" then n else n
    rw [ite_self]
  · rw [if_neg h]
    rfl

theorem applyAttrs_not_changed (n : String) (loc rem : QualityDefinition)
    (r : RemoteRecord)
    (h : (get_update_remote_attrs n loc rem).1 = false) :
    r.applyAttrs (get_update_remote_attrs n loc rem).2 = r := by
  by_cases h1 : encodeTitle n loc.title ≠ encodeTitle n rem.title
  · exact absurd h (by simp [get_update_remote_attrs, h1])
  · by_cases h2 : loc.min ≠ rem.min
    · exact absurd h (by simp [get_update_remote_attrs, h2])
    · by_cases h3 : loc.preferred ≠ rem.preferred
      · exact absurd h (by simp [get_update_remote_attrs, h3])
      · by_cases h4 : loc.max ≠ rem.max
        · exact absurd h (by simp [get_update_remote_attrs, h4])
        · simp [RemoteRecord.applyAttrs, get_update_remote_attrs,
            h1, h2, h3, h4]

theorem reconcileRecord_name (defs : List (String × QualityDefinition))
    (r : RemoteRecord) : (reconcileRecord defs r).name = r.name := by
  unfold reconcileRecord
  cases dictLookup defs r.name <;> rfl

theorem reconcileRecord_id (defs : List (String × QualityDefinition))
    (r : RemoteRecord) : (reconcileRecord defs r).id = r.id := by
  unfold reconcileRecord
  cases dictLookup defs r.name <;> rfl

theorem get_update_remote_attrs_unchanged (n : String)
    (loc rem : QualityDefinition)
    (h1 : encodeTitle n rem.title = encodeTitle n loc.title)
    (h2 : rem.min = loc.min) (h3 : rem.preferred = loc.preferred)
    (h4 : rem.max = loc.max) :
    (get_update_remote_attrs n loc rem).1 = false := by
  simp [get_update_remote_attrs, h1, h2, h3, h4]

theorem tier_stable (n : String) (loc : QualityDefinition) (r : RemoteRecord)
    (hn : r.name = n) :
    (get_update_remote_attrs n loc (fromRemoteRecord
      (r.applyAttrs
        (get_update_remote_attrs n loc (fromRemoteRecord r)).2))).1 =
      false := by
  have hname : (r.applyAttrs
      (get_update_remote_attrs n loc (fromRemoteRecord r)).2).name = n := hn
  have e2 : (fromRemoteRecord (r.applyAttrs
      (get_update_remote_attrs n loc (fromRemoteRecord r)).2)).min =
      loc.min := by
    by_cases hc : loc.min = r.minSize
    · simp [fromRemoteRecord, RemoteRecord.applyAttrs,
        get_update_remote_attrs, hc]
    · simp [fromRemoteRecord, RemoteRecord.applyAttrs,
        get_update_remote_attrs, hc]
  have e3 : (fromRemoteRecord (r.applyAttrs
      (get_update_remote_attrs n loc (fromRemoteRecord r)).2)).preferred =
      loc.preferred := by
    by_cases hc : loc.preferred = r.preferredSize
    · simp [fromRemoteRecord, RemoteRecord.applyAttrs,
        get_update_remote_attrs, hc]
    · simp [fromRemoteRecord, RemoteRecord.applyAttrs,
        get_update_remote_attrs, hc]
  have e4 : (fromRemoteRecord (r.applyAttrs
      (get_update_remote_attrs n loc (fromRemoteRecord r)).2)).max =
      loc.max := by
    by_cases hc : loc.max = r.maxSize
    · simp [fromRemoteRecord, RemoteRecord.applyAttrs,
        get_update_remote_attrs, hc]
    · simp [fromRemoteRecord, RemoteRecord.applyAttrs,
        get_update_remote_attrs, hc]
  have e1 : encodeTitle n (fromRemoteRecord (r.applyAttrs
      (get_update_remote_attrs n loc (fromRemoteRecord r)).2)).title =
      encodeTitle n loc.title := by
    by_cases hB : encodeTitle n loc.title ≠
        encodeTitle n (fromRemoteRecord r).title
    · have htitle : (r.applyAttrs
          (get_update_remote_attrs n loc (fromRemoteRecord r)).2).title =
          encodeTitle n loc.title := by
        simp [RemoteRecord.applyAttrs, get_update_remote_attrs, hB]
      rw [encodeTitle_fromRemote n _ hname, htitle]
      by_cases hse : encodeTitle n loc.title = ""
      · rcases encodeTitle_cases n loc.title with hsn | hne
        · rw [if_pos hse, hsn]
        · exact absurd hse hne
      · rw [if_neg hse]
    · push_neg at hB
      have htitle : (r.applyAttrs
          (get_update_remote_attrs n loc (fromRemoteRecord r)).2).title =
          r.title := by
        simp [RemoteRecord.applyAttrs, get_update_remote_attrs, hB]
      rw [encodeTitle_fromRemote n _ hname, hB,
        encodeTitle_fromRemote n r hn, htitle]
  exact get_update_remote_attrs_unchanged n loc _ e1 e2 e3 e4

/-! ### Claim C2: the index dicts over a duplicate-free server store -/

theorem remote_definitions_json_eq (raw : List RemoteRecord)
    (hI : (raw.map RemoteRecord.id).Nodup) :
    remote_definitions_json raw = raw.map (fun r => (r.id, r)) := by
  apply dictOf_eq_of_nodup
  rw [List.map_map]
  exact hI

theorem definition_ids_eq (raw : List RemoteRecord)
    (hI : (raw.map RemoteRecord.id).Nodup)
    (hN : (raw.map RemoteRecord.name).Nodup) :
    definition_ids raw = raw.map (fun r => (r.name, r.id)) := by
  have h1 : definition_ids raw =
      dictOf (raw.map (fun r => (r.name, r.id))) := by
    unfold definition_ids
    rw [remote_definitions_json_eq raw hI, List.map_map]
    rfl
  rw [h1]
  apply dictOf_eq_of_nodup
  rw [List.map_map]
  exact hN

theorem from_remote_defs_eq (raw : List RemoteRecord)
    (hN : (raw.map RemoteRecord.name).Nodup) :
    (from_remote raw).definitions =
      raw.map (fun r => (r.name, fromRemoteRecord r)) := by
  show dictOf (raw.map (fun r => (r.name, fromRemoteRecord r))) = _
  apply dictOf_eq_of_nodup
  rw [List.map_map]
  exact hN

theorem lookup_from_remote (raw : List RemoteRecord)
    (hN : (raw.map RemoteRecord.name).Nodup) (k : String) :
    dictLookup (from_remote raw).definitions k =
      (raw.find? (fun r => r.name = k)).map fromRemoteRecord := by
  rw [from_remote_defs_eq raw hN]
  exact dictLookup_map RemoteRecord.name fromRemoteRecord raw k

theorem lookup_definition_ids (raw : List RemoteRecord)
    (hI : (raw.map RemoteRecord.id).Nodup)
    (hN : (raw.map RemoteRecord.name).Nodup) (k : String) :
    dictLookup (definition_ids raw) k =
      (raw.find? (fun r => r.name = k)).map RemoteRecord.id := by
  rw [definition_ids_eq raw hI hN]
  exact dictLookup_map RemoteRecord.name RemoteRecord.id raw k

theorem lookup_remote_definitions_json (raw : List RemoteRecord)
    (hI : (raw.map RemoteRecord.id).Nodup) (k : Nat) :
    dictLookup (remote_definitions_json raw) k =
      raw.find? (fun r => r.id = k) := by
  rw [remote_definitions_json_eq raw hI]
  have h := dictLookup_map RemoteRecord.id (fun r => r) raw k
  rw [h]
  cases raw.find? (fun r => r.id = k) <;> rfl

theorem find?_map_eq {α β : Type} (f : α → β) (p : β → Bool) (l : List α) :
    (l.map f).find? p = (l.find? (fun a => p (f a))).map f := by
  rw [List.find?_map]
  rfl

/-! ### Claim C2: applying the PUT trace to the server store -/

theorem foldl_applyPut_eq_map (puts : List PutCall)
    (raw : List RemoteRecord) :
    puts.foldl applyPut raw =
      raw.map (fun r => puts.foldl replaceById r) := by
  induction puts generalizing raw with
  | nil => simp
  | cons pc rest ih =>
      rw [List.foldl_cons, ih (applyPut raw pc)]
      unfold applyPut
      rw [List.map_map]
      rfl

theorem foldl_replace_of_ne (r : RemoteRecord) :
    ∀ (puts : List PutCall), (∀ pc ∈ puts, pc.id ≠ r.id) →
      puts.foldl replaceById r = r := by
  intro puts
  induction puts with
  | nil => intro _; rfl
  | cons pc rest ih =>
      intro h
      rw [List.foldl_cons]
      have hrep : replaceById r pc = r := by
        unfold replaceById
        rw [if_neg (fun hEq => (h pc (List.mem_cons_self _ _)) hEq.symm)]
      rw [hrep]
      exact ih (fun pc' h' => h pc' (List.mem_cons_of_mem _ h'))

theorem foldl_replace_or (rid : Nat) (tgt : RemoteRecord) :
    ∀ (puts : List PutCall) (x : RemoteRecord), x.id = rid → tgt.id = rid →
      (∀ pc ∈ puts, pc.id = rid → pc.body = tgt) →
      (puts.foldl replaceById x = x ∨ puts.foldl replaceById x = tgt) := by
  intro puts
  induction puts with
  | nil => intro x _ _ _; exact Or.inl rfl
  | cons pc rest ih =>
      intro x hx htgt hb
      rw [List.foldl_cons]
      by_cases hid : x.id = pc.id
      · have hbody : pc.body = tgt :=
          hb pc (List.mem_cons_self _ _) (by rw [← hid, hx])
        have hrep : replaceById x pc = tgt := by
          unfold replaceById
          rw [if_pos hid, hbody]
        rw [hrep]
        rcases ih tgt htgt htgt
            (fun pc' h' hpc' => hb pc' (List.mem_cons_of_mem _ h') hpc') with
          h1 | h1
        · exact Or.inr h1
        · exact Or.inr h1
      · have hrep : replaceById x pc = x := by
          unfold replaceById
          rw [if_neg hid]
        rw [hrep]
        exact ih x hx htgt
          (fun pc' h' hpc' => hb pc' (List.mem_cons_of_mem _ h') hpc')

theorem foldl_replace_hit (rid : Nat) (tgt : RemoteRecord) :
    ∀ (puts : List PutCall) (x : RemoteRecord), x.id = rid → tgt.id = rid →
      (∀ pc ∈ puts, pc.id = rid → pc.body = tgt) →
      (∃ pc ∈ puts, pc.id = rid) →
      puts.foldl replaceById x = tgt := by
  intro puts
  induction puts with
  | nil =>
      intro x _ _ _ hex
      rcases hex with ⟨pc, hpc, _⟩
      simp at hpc
  | cons pc rest ih =>
      intro x hx htgt hb hex
      rw [List.foldl_cons]
      by_cases hid : x.id = pc.id
      · have hbody : pc.body = tgt :=
          hb pc (List.mem_cons_self _ _) (by rw [← hid, hx])
        have hrep : replaceById x pc = tgt := by
          unfold replaceById
          rw [if_pos hid, hbody]
        rw [hrep]
        rcases foldl_replace_or rid tgt rest tgt htgt htgt
            (fun pc' h' hpc' => hb pc' (List.mem_cons_of_mem _ h') hpc') with
          h1 | h1
        · exact h1
        · exact h1
      · have hrep : replaceById x pc = x := by
          unfold replaceById
          rw [if_neg hid]
        rw [hrep]
        apply ih x hx htgt
          (fun pc' h' hpc' => hb pc' (List.mem_cons_of_mem _ h') hpc')
        rcases hex with ⟨pc', hpc', hpcid⟩
        rcases List.mem_cons.mp hpc' with h1 | h2
        · exact absurd (by rw [hx, ← hpcid, h1]) hid
        · exact ⟨pc', h2, hpcid⟩

theorem tierPut_some_resolve (raw : List RemoteRecord)
    (hI : (raw.map RemoteRecord.id).Nodup)
    (hN : (raw.map RemoteRecord.name).Nodup)
    (q : String × QualityDefinition) (pc : PutCall)
    (h : tierPut (from_remote raw).definitions (remote_definitions_json raw)
      (definition_ids raw) q = some pc) :
    ∃ rq ∈ raw, rq.name = q.1 ∧
      pc = ⟨rq.id, rq.applyAttrs
        (get_update_remote_attrs q.1 q.2 (fromRemoteRecord rq)).2⟩ := by
  obtain ⟨rem, i, record, hrem, hch, hlkid, hlkrec, hpc⟩ := tierPut_eq_some h
  rw [lookup_from_remote raw hN] at hrem
  cases hfind : raw.find? (fun r => r.name = q.1) with
  | none => rw [hfind] at hrem; cases hrem
  | some rq =>
      rw [hfind, Option.map_some'] at hrem
      have hrq_mem : rq ∈ raw := List.mem_of_find?_eq_some hfind
      have hrq_name : rq.name = q.1 := by
        have hp := List.find?_some hfind
        simpa using hp
      have hrem' : rem = fromRemoteRecord rq := by
        injection hrem.symm
      rw [lookup_definition_ids raw hI hN, hfind, Option.map_some'] at hlkid
      have hi : i = rq.id := by
        injection hlkid.symm
      rw [lookup_remote_definitions_json raw hI, hi] at hlkrec
      have hfindid : raw.find? (fun x => x.id = rq.id) = some rq :=
        find_eq_of_nodup_key RemoteRecord.id raw hI rq hrq_mem
      rw [hfindid] at hlkrec
      have hrec : record = rq := by
        injection hlkrec.symm
      refine ⟨rq, hrq_mem, hrq_name, ?_⟩
      rw [hpc, hi, hrec, hrem']

theorem run_writes_eq_reconcile (cfg : SonarrQualitySettingsConfig)
    (raw : List RemoteRecord) (puts : List PutCall) (b : Bool)
    (hL : (cfg.definitions.map Prod.fst).Nodup)
    (hN : (raw.map RemoteRecord.name).Nodup)
    (hI : (raw.map RemoteRecord.id).Nodup)
    (h : update_remote cfg (from_remote raw) raw = (puts, .ok b)) :
    puts.foldl applyPut raw = raw.map (reconcileRecord cfg.definitions) := by
  obtain ⟨h1, _, _⟩ := updateLoop_ok (from_remote raw).definitions
    (remote_definitions_json raw) (definition_ids raw) cfg.definitions
    false [] puts b h
  rw [List.nil_append] at h1
  rw [foldl_applyPut_eq_map]
  apply List.map_congr_left
  intro r hr
  have hput_resolve : ∀ pc ∈ puts, ∃ q ∈ cfg.definitions,
      tierPut (from_remote raw).definitions (remote_definitions_json raw)
        (definition_ids raw) q = some pc ∧
      ∃ rq ∈ raw, rq.name = q.1 ∧ pc = ⟨rq.id, rq.applyAttrs
        (get_update_remote_attrs q.1 q.2 (fromRemoteRecord rq)).2⟩ := by
    intro pc hpc
    rw [h1] at hpc
    rcases List.mem_filterMap.mp hpc with ⟨q, hq, hqput⟩
    rcases tierPut_some_resolve raw hI hN q pc hqput with
      ⟨rq, hrq, hname, hpc_eq⟩
    exact ⟨q, hq, hqput, rq, hrq, hname, hpc_eq⟩
  cases hlk : dictLookup cfg.definitions r.name with
  | none =>
      unfold reconcileRecord
      rw [hlk]
      apply foldl_replace_of_ne
      intro pc hpc hpcid
      rcases hput_resolve pc hpc with ⟨q, hq, _, rq, hrq, hname, hpc_eq⟩
      have hrqid : rq.id = r.id := by rw [← hpcid, hpc_eq]
      have hrqr : rq = r := nodup_map_inj RemoteRecord.id hI hrq hr hrqid
      have hs := dictLookup_isSome_of_mem hq
      rw [← hname, hrqr, hlk] at hs
      cases hs
  | some loc =>
      unfold reconcileRecord
      rw [hlk]
      dsimp only
      have hmem : (r.name, loc) ∈ cfg.definitions :=
        mem_of_dictLookup_eq_some hlk
      have hfind : raw.find? (fun x => x.name = r.name) = some r :=
        find_eq_of_nodup_key RemoteRecord.name raw hN r hr
      have hlkR : dictLookup (from_remote raw).definitions r.name =
          some (fromRemoteRecord r) := by
        rw [lookup_from_remote raw hN, hfind, Option.map_some']
      by_cases hch :
          (get_update_remote_attrs r.name loc (fromRemoteRecord r)).1 = true
      · have hfindid : raw.find? (fun x => x.id = r.id) = some r :=
          find_eq_of_nodup_key RemoteRecord.id raw hI r hr
        have hid : dictLookup (definition_ids raw) r.name = some r.id := by
          rw [lookup_definition_ids raw hI hN, hfind, Option.map_some']
        have hrec : dictLookup (remote_definitions_json raw) r.id = some r := by
          rw [lookup_remote_definitions_json raw hI, hfindid]
        have htp : tierPut (from_remote raw).definitions
            (remote_definitions_json raw) (definition_ids raw) (r.name, loc) =
            some ⟨r.id, r.applyAttrs
              (get_update_remote_attrs r.name loc (fromRemoteRecord r)).2⟩ := by
          simp only [tierPut, hlkR]
          rw [if_pos hch]
          simp only [hid, hrec]
        have hpc0mem : (⟨r.id, r.applyAttrs
            (get_update_remote_attrs r.name loc (fromRemoteRecord r)).2⟩ :
              PutCall) ∈ puts := by
          rw [h1]
          exact List.mem_filterMap.mpr ⟨(r.name, loc), hmem, htp⟩
        apply foldl_replace_hit r.id (r.applyAttrs
          (get_update_remote_attrs r.name loc (fromRemoteRecord r)).2)
          puts r rfl rfl
        · intro pc hpc hpcid
          rcases hput_resolve pc hpc with ⟨q, hq, hqput, rq, hrq, hname, hpc_eq⟩
          have hrqid : rq.id = r.id := by rw [← hpcid, hpc_eq]
          have hrqr : rq = r := nodup_map_inj RemoteRecord.id hI hrq hr hrqid
          have hq_eq : q = (r.name, loc) :=
            nodup_map_inj Prod.fst hL hq hmem (by rw [← hname, hrqr])
          rw [hpc_eq, hq_eq, hrqr]
        · exact ⟨_, hpc0mem, rfl⟩
      · have hch' :
            (get_update_remote_attrs r.name loc (fromRemoteRecord r)).1 =
              false := by
          simpa using hch
        rw [applyAttrs_not_changed r.name loc (fromRemoteRecord r) r hch']
        apply foldl_replace_of_ne
        intro pc hpc hpcid
        rcases hput_resolve pc hpc with ⟨q, hq, hqput, rq, hrq, hname, hpc_eq⟩
        have hrqid : rq.id = r.id := by rw [← hpcid, hpc_eq]
        have hrqr : rq = r := nodup_map_inj RemoteRecord.id hI hrq hr hrqid
        have hq_eq : q = (r.name, loc) :=
          nodup_map_inj Prod.fst hL hq hmem (by rw [← hname, hrqr])
        have htc : tierChanged (from_remote raw).definitions (r.name, loc) =
            false := by
          simp only [tierChanged, hlkR]
          exact hch'
        have htpn := @tierPut_none_of_not_changed
          (from_remote raw).definitions (remote_definitions_json raw)
          (definition_ids raw) (r.name, loc) htc
        rw [hq_eq, htpn] at hqput
        cases hqput

/-- Claim C2: reconciliation is idempotent — after a completed
`update_remote` run against a duplicate-free server store, a second run
whose remote snapshot and raw records reflect the first run's writes issues
no writes and returns `changed = False`. -/
theorem C2_idempotent (cfg : SonarrQualitySettingsConfig)
    (raw : List RemoteRecord) (puts : List PutCall) (b : Bool)
    (hL : (cfg.definitions.map Prod.fst).Nodup)
    (hN : (raw.map RemoteRecord.name).Nodup)
    (hI : (raw.map RemoteRecord.id).Nodup)
    (h : update_remote cfg (from_remote raw) raw = (puts, .ok b)) :
    update_remote cfg (from_remote (puts.foldl applyPut raw))
      (puts.foldl applyPut raw) = ([], .ok false) := by
  rw [run_writes_eq_reconcile cfg raw puts b hL hN hI h]
  obtain ⟨_, _, h3⟩ := updateLoop_ok (from_remote raw).definitions
    (remote_definitions_json raw) (definition_ids raw) cfg.definitions
    false [] puts b h
  have hnames : (raw.map (reconcileRecord cfg.definitions)).map
      RemoteRecord.name = raw.map RemoteRecord.name := by
    rw [List.map_map]
    apply List.map_congr_left
    intro r _
    exact reconcileRecord_name cfg.definitions r
  have hN' : ((raw.map (reconcileRecord cfg.definitions)).map
      RemoteRecord.name).Nodup := by
    rw [hnames]
    exact hN
  unfold update_remote
  apply updateLoop_no_changes
  intro p hp
  have hsome := (h3 p hp).1
  rw [lookup_from_remote raw hN] at hsome
  cases hfind : raw.find? (fun x => x.name = p.1) with
  | none =>
      rw [hfind] at hsome
      simp at hsome
  | some rn =>
      have hrn_mem : rn ∈ raw := List.mem_of_find?_eq_some hfind
      have hrn_name : rn.name = p.1 := by
        have hp' := List.find?_some hfind
        simpa using hp'
      have hfind' : (raw.map (reconcileRecord cfg.definitions)).find?
          (fun x => x.name = p.1) =
          some (reconcileRecord cfg.definitions rn) := by
        rw [find?_map_eq]
        simp only [reconcileRecord_name]
        rw [hfind, Option.map_some']
      have hlkR' : dictLookup (from_remote (raw.map
          (reconcileRecord cfg.definitions))).definitions p.1 =
          some (fromRemoteRecord (reconcileRecord cfg.definitions rn)) := by
        rw [lookup_from_remote _ hN', hfind', Option.map_some']
      have hlkdefs : dictLookup cfg.definitions p.1 = some p.2 :=
        dictLookup_eq_some_of_mem hL hp
      have hrec_eq : reconcileRecord cfg.definitions rn =
          rn.applyAttrs (get_update_remote_attrs p.1 p.2
            (fromRemoteRecord rn)).2 := by
        unfold reconcileRecord
        rw [hrn_name, hlkdefs]
      refine ⟨_, hlkR', ?_⟩
      rw [hrec_eq]
      exact tier_stable p.1 p.2 rn hrn_name

/-- Claim C2 witness: rerunning the fixture reconciliation against the
written-back store issues no writes and reports no change. -/
theorem C2_witness :
    update_remote cfgAB
      (from_remote ([putB].foldl applyPut [rawA, rawB]))
      ([putB].foldl applyPut [rawA, rawB]) = ([], .ok false) :=
  C2_idempotent cfgAB [rawA, rawB] [putB] true (by decide) (by decide)
    (by decide) update_remote_cfgAB_eval
